import Mathlib

/-!
Verification of the peer-to-peer block/transaction synchronization handler
(protocol manager, broadcast fan-out, UDP verifier channel) and of the swarm
manifest trie, as implemented in the repository sources.

Machine integers (`uint64`) are modelled as `Nat` with explicit reduction
modulo `2^64` at every operation where Go wraps; Go's `uint64 → int`
conversion is modelled explicitly.  Total difficulties (`*big.Int`) are
modelled as `Int`.
-/

/-- `2^64`, the modulus of Go's `uint64` arithmetic. -/
def U64 : Nat := 2 ^ 64

/-- Go's conversion `int(x)` for a `uint64` value `x` (two's-complement
reinterpretation of the low 64 bits). -/
def u64ToInt (x : Nat) : Int :=
  if x < 2 ^ 63 then (x : Int) else (x : Int) - (U64 : Int)

/-- `softResponseLimit = 2 * 1024 * 1024` from the handler source. -/
def softResponseLimit : Nat := 2 * 1024 * 1024

/-- `estHeaderRlpSize = 500` from the handler source. -/
def estHeaderRlpSize : Nat := 500

/-- The largest number of headers the byte budget admits: the reply loop
runs while `bytes < softResponseLimit` with `bytes = estHeaderRlpSize *
count`, so at most `⌊softResponseLimit / estHeaderRlpSize⌋ + 1 = 4195`
headers are gathered. -/
def headerByteCap : Nat := softResponseLimit / estHeaderRlpSize + 1

/-- A block header as seen by the `GetBlockHeaders` handler: its number,
its parent hash and its own hash.  Hashes are abstracted to `Nat`, with
`0` playing the role of the zero hash `common.Hash{}`. -/
structure Header where
  number : Nat
  parentHash : Nat
  hash : Nat
deriving DecidableEq, Repr

/-- The header-level read interface of the local chain consumed by
`handleMsg`: `GetHeaderByHash`, `GetHeaderByNumber`, `GetHeader(hash,
number)` and `GetBlockHashesFromHash(hash, count)`. -/
structure ChainView where
  getHeaderByHash : Nat → Option Header
  getHeaderByNumber : Nat → Option Header
  getHeader : Nat → Nat → Option Header
  getBlockHashesFromHash : Nat → Nat → List Nat

/-- `getBlockHeadersData`: origin as hash-or-number (hash mode is chosen
iff `originHash ≠ 0`), amount, skip, reverse. -/
structure HeadersQuery where
  originHash : Nat
  originNumber : Nat
  amount : Nat
  skip : Nat
  reverse : Bool
deriving DecidableEq, Repr

/-- The inner `for i := 0; i < int(query.Skip)+1; i++` walk of the
hash-based reverse traversal: follow parent hashes, decrementing the
(wrapping) block number; `none` models `unknown = true`. -/
def hashRevLoop (c : ChainView) : Nat → Nat → Nat → Option (Nat × Nat)
  | 0, oHash, number => some (oHash, number)
  | i + 1, oHash, number =>
    match c.getHeader oHash number with
    | some header => hashRevLoop c i header.parentHash ((number + (U64 - 1)) % U64)
    | none => none

/-- The header-gathering loop of the `GetBlockHeadersMsg` case of
`handleMsg`.  State per iteration: remaining fuel (the loop runs at most
`amount` times since the guard demands `count < amount`), the current
`query.Origin.Hash` and `query.Origin.Number`, the number of headers
gathered so far (`len(headers)`), and the byte estimate.  The list of
gathered headers is returned directly; `unknown = true` ends the loop
with the headers gathered so far. -/
def headersLoop (c : ChainView) (maxHeaderFetch amount skip : Nat)
    (reverse hashMode : Bool) :
    Nat → Nat → Nat → Nat → Nat → List Header
  | 0, _, _, _, _ => []
  | fuel + 1, oHash, oNum, count, bytes =>
    if (count : Int) < u64ToInt amount ∧ bytes < softResponseLimit ∧
        count < maxHeaderFetch then
      match (if hashMode then c.getHeaderByHash oHash
             else c.getHeaderByNumber oNum) with
      | none => []
      | some origin =>
        let number := origin.number
        let bytes' := bytes + estHeaderRlpSize
        if oHash ≠ 0 ∧ reverse then
          -- hash based traversal towards the genesis block
          match hashRevLoop c (u64ToInt skip + 1).toNat oHash number with
          | some (oHash', number') =>
            origin :: headersLoop c maxHeaderFetch amount skip reverse hashMode
              fuel oHash' number' (count + 1) bytes'
          | none => [origin]
        else if oHash ≠ 0 ∧ ¬reverse then
          -- hash based traversal towards the leaf block
          let current := origin.number
          let next := (current + skip + 1) % U64
          if next ≤ current then
            -- skip overflow attack: log and end with the partial reply
            [origin]
          else
            match c.getHeaderByNumber next with
            | some header =>
              if (c.getBlockHashesFromHash header.hash ((skip + 1) % U64)).getD
                  skip 0 = oHash then
                origin :: headersLoop c maxHeaderFetch amount skip reverse
                  hashMode fuel header.hash oNum (count + 1) bytes'
              else [origin]
            | none => [origin]
        else if reverse then
          -- number based traversal towards the genesis block
          if (skip + 1) % U64 ≤ oNum then
            origin :: headersLoop c maxHeaderFetch amount skip reverse hashMode
              fuel oHash (oNum - (skip + 1) % U64) (count + 1) bytes'
          else [origin]
        else
          -- number based traversal towards the leaf block
          origin :: headersLoop c maxHeaderFetch amount skip reverse hashMode
            fuel oHash ((oNum + skip + 1) % U64) (count + 1) bytes'
    else []

/-- The `GetBlockHeadersMsg` case of `handleMsg`: gather headers following
the query, bounded by amount, `MaxHeaderFetch` and the soft response
limit.  `maxHeaderFetch` is the downloader's `MaxHeaderFetch` constant,
kept as a parameter. -/
def handleGetBlockHeaders (c : ChainView) (maxHeaderFetch : Nat)
    (q : HeadersQuery) : List Header :=
  headersLoop c maxHeaderFetch q.amount q.skip q.reverse
    (decide (q.originHash ≠ 0)) q.amount q.originHash q.originNumber 0 0

/-- The reply the spec predicts for a by-number forward query: headers at
`n, n+(s+1), n+2(s+1), …`, truncated at the first number whose header is
absent, with at most `k` headers. -/
def expectedForward (lookup : Nat → Option Header) (s : Nat) :
    Nat → Nat → List Header
  | _, 0 => []
  | n, k + 1 =>
    match lookup n with
    | none => []
    | some h => h :: expectedForward lookup s (n + (s + 1)) k

/-- The by-number forward traversal as the code actually advances it: the
origin number moves by `skip+1` modulo `2^64`, wrapping on overflow. -/
def expectedForwardWrap (lookup : Nat → Option Header) (s : Nat) :
    Nat → Nat → List Header
  | _, 0 => []
  | n, k + 1 =>
    match lookup n with
    | none => []
    | some h => h :: expectedForwardWrap lookup s ((n + s + 1) % U64) k

lemma u64ToInt_small {x : Nat} (h : x < 2 ^ 63) : u64ToInt x = x := by
  rw [u64ToInt, if_pos h]

/-- One unfolding step of the gathering loop in by-number forward mode. -/
lemma headersLoop_step_num (c : ChainView) (maxHF a s fuel n count bytes : Nat) :
    headersLoop c maxHF a s false false (fuel + 1) 0 n count bytes =
      if (count : Int) < u64ToInt a ∧ bytes < softResponseLimit ∧
          count < maxHF then
        match c.getHeaderByNumber n with
        | none => []
        | some origin =>
          origin :: headersLoop c maxHF a s false false fuel 0
            ((n + s + 1) % U64) (count + 1) (bytes + estHeaderRlpSize)
      else [] := by
  rw [headersLoop]
  split
  · cases c.getHeaderByNumber n <;> simp
  · rfl

/-- Characterization of the gathering loop in by-number forward mode
(`originHash = 0`, `reverse = false`): the loop walks the chain by
`skip+1` steps modulo `2^64`, bounded by `amount`, `MaxHeaderFetch` and
the byte budget. -/
lemma headersLoop_num_forward (c : ChainView) (maxHF a s : Nat)
    (ha : a < 2 ^ 63) :
    ∀ fuel count bytes n, bytes = estHeaderRlpSize * count →
      a ≤ fuel + count →
      headersLoop c maxHF a s false false fuel 0 n count bytes
        = expectedForwardWrap c.getHeaderByNumber s n
            (min (a - count) (min (maxHF - count) (headerByteCap - count))) := by
  have hcap : headerByteCap = 4195 := by decide
  intro fuel
  induction fuel with
  | zero =>
    intro count bytes n hb hf
    have h0 : a - count = 0 := by omega
    simp [headersLoop, h0, expectedForwardWrap]
  | succ fuel ih =>
    intro count bytes n hb hf
    rw [headersLoop_step_num]
    by_cases hg : count < a ∧ count < headerByteCap ∧ count < maxHF
    · have hcnt : count < 4195 := hcap ▸ hg.2.1
      have hguard : (count : Int) < u64ToInt a ∧ bytes < softResponseLimit ∧
          count < maxHF := by
        refine ⟨?_, ?_, hg.2.2⟩
        · rw [u64ToInt_small ha]; exact_mod_cast hg.1
        · subst hb
          simp only [estHeaderRlpSize, softResponseLimit]
          omega
      rw [if_pos hguard]
      obtain ⟨k, hk⟩ : ∃ k, min (a - count) (min (maxHF - count)
          (headerByteCap - count)) = k + 1 := by
        refine ⟨min (a - count) (min (maxHF - count) (headerByteCap - count)) - 1, ?_⟩
        omega
      rw [hk]
      cases hcn : c.getHeaderByNumber n with
      | none => simp [expectedForwardWrap, hcn]
      | some h =>
        simp only [expectedForwardWrap, hcn]
        rw [ih (count + 1) (bytes + estHeaderRlpSize) ((n + s + 1) % U64)
          (by subst hb; ring) (by omega)]
        have hmin : min (a - (count + 1)) (min (maxHF - (count + 1))
            (headerByteCap - (count + 1))) = k := by omega
        rw [hmin]
    · have hng : ¬((count : Int) < u64ToInt a ∧ bytes < softResponseLimit ∧
          count < maxHF) := by
        intro hx
        rw [u64ToInt_small ha] at hx
        have h1 : count < a := by exact_mod_cast hx.1
        have h2 : count < headerByteCap := by
          subst hb
          simp only [estHeaderRlpSize, softResponseLimit] at hx
          rw [hcap]
          omega
        exact hg ⟨h1, h2, hx.2.2⟩
      rw [if_neg hng]
      have h0 : min (a - count) (min (maxHF - count) (headerByteCap - count)) = 0 := by
        omega
      rw [h0]
      rfl

/-- When the traversal never crosses `2^64`, the wrapping walk coincides
with the plain arithmetic walk `n, n+(s+1), n+2(s+1), …`. -/
lemma expectedForwardWrap_eq_forward (lookup : Nat → Option Header) (s : Nat) :
    ∀ k n, n + k * (s + 1) < U64 →
      expectedForwardWrap lookup s n k = expectedForward lookup s n k := by
  intro k
  induction k with
  | zero => intro n _; rfl
  | succ k ih =>
    intro n hov
    have hstep : n + s + 1 < U64 := by
      have : (s + 1) ≤ (k + 1) * (s + 1) := Nat.le_mul_of_pos_left _ (by omega)
      omega
    simp only [expectedForwardWrap, expectedForward]
    cases lookup n with
    | none => rfl
    | some h =>
      simp only
      rw [Nat.mod_eq_of_lt hstep,
        show n + s + 1 = n + (s + 1) from by omega,
        ih (n + (s + 1)) (by
          have hmul : (k + 1) * (s + 1) = k * (s + 1) + (s + 1) := by ring
          omega)]

/-- C1: For every GetBlockHeaders query in by-number forward mode (origin
number `n`, skip `s`, amount `a`, reverse = false), the reply is the
sequence of headers at numbers `n, n+(s+1), n+2(s+1), …`, truncated at
the first number whose header is absent from the chain, containing at
most `min(a, MaxHeaderFetch)` headers and also capped by the soft
response size limit (2 MiB at 500 estimated bytes per header).  Stated
for queries whose arithmetic stays below `2^64` (overflowing queries are
the subject of the skip-overflow claim). -/
theorem c1_header_query_number_forward (c : ChainView) (maxHF n s a : Nat)
    (ha : a < 2 ^ 63) (hov : n + a * (s + 1) < U64) :
    handleGetBlockHeaders c maxHF ⟨0, n, a, s, false⟩
      = expectedForward c.getHeaderByNumber s n
          (min a (min maxHF headerByteCap)) := by
  have h1 : handleGetBlockHeaders c maxHF ⟨0, n, a, s, false⟩
      = headersLoop c maxHF a s false false a 0 n 0 0 := by
    simp [handleGetBlockHeaders]
  rw [h1, headersLoop_num_forward c maxHF a s ha a 0 0 n (by simp) (by omega)]
  simp only [Nat.sub_zero]
  exact expectedForwardWrap_eq_forward c.getHeaderByNumber s _ n
    (by
      have hle : min a (min maxHF headerByteCap) ≤ a := Nat.min_le_left _ _
      have : min a (min maxHF headerByteCap) * (s + 1) ≤ a * (s + 1) :=
        Nat.mul_le_mul_right _ hle
      omega)

/-- A chain view in which every block number has a header (with zero
parent hash and zero own hash); used as a concrete test chain. -/
def chainAllHeaders : ChainView where
  getHeaderByHash := fun _ => none
  getHeaderByNumber := fun n => some ⟨n, 0, 0⟩
  getHeader := fun _ _ => none
  getBlockHashesFromHash := fun _ _ => []

/-- Witness for C1: skip=1, amount=4 from block 100 yields the headers at
numbers [100, 102, 104, 106]. -/
theorem c1_header_query_number_forward_witness :
    handleGetBlockHeaders chainAllHeaders 192 ⟨0, 100, 4, 1, false⟩
      = [⟨100, 0, 0⟩, ⟨102, 0, 0⟩, ⟨104, 0, 0⟩, ⟨106, 0, 0⟩] := by
  rw [c1_header_query_number_forward chainAllHeaders 192 100 1 4
    (by norm_num) (by norm_num [U64])]
  rfl

/-- C2 counterexample: in by-number forward mode the handler does NOT end
the traversal when `next = current + skip + 1` wraps past `2^64`
(`next ≤ current`): starting at number `2^64 - 1` with skip 0 and
amount 2 on a chain where every number has a header, the reply contains
the header at the wrapped number 0 as its second element instead of
being cut to the partial reply `[header(2^64-1)]`. -/
theorem c2_skip_overflow_counterexample :
    handleGetBlockHeaders chainAllHeaders 192 ⟨0, U64 - 1, 2, 0, false⟩
        = [⟨U64 - 1, 0, 0⟩, ⟨0, 0, 0⟩] ∧
      handleGetBlockHeaders chainAllHeaders 192 ⟨0, U64 - 1, 2, 0, false⟩
        ≠ [⟨U64 - 1, 0, 0⟩] := by
  constructor
  · decide
  · decide

/-- C2 (amended): the skip-overflow behaviour of `GetBlockHeaders`.
(1) In by-number forward mode (origin given by number, reverse = false)
the handler performs no overflow check: the origin number advances by
`skip+1` modulo `2^64`, wrapping past the overflow and continuing the
traversal at the wrapped number.  (2) The detection of `next ≤ current`
that ends the traversal with the partial reply lives in the hash-based
forward branch (origin given by a non-zero hash, reverse = false). -/
theorem c2_skip_overflow_amended :
    (∀ (c : ChainView) (maxHF n s a : Nat), a < 2 ^ 63 →
      handleGetBlockHeaders c maxHF ⟨0, n, a, s, false⟩
        = expectedForwardWrap c.getHeaderByNumber s n
            (min a (min maxHF headerByteCap))) ∧
    (∀ (c : ChainView) (maxHF hh oN s a : Nat) (h : Header),
      hh ≠ 0 → c.getHeaderByHash hh = some h →
      1 ≤ a → a < 2 ^ 63 → 1 ≤ maxHF →
      (h.number + s + 1) % U64 ≤ h.number →
      handleGetBlockHeaders c maxHF ⟨hh, oN, a, s, false⟩ = [h]) := by
  constructor
  · intro c maxHF n s a ha
    have h1 : handleGetBlockHeaders c maxHF ⟨0, n, a, s, false⟩
        = headersLoop c maxHF a s false false a 0 n 0 0 := by
      simp [handleGetBlockHeaders]
    rw [h1, headersLoop_num_forward c maxHF a s ha a 0 0 n (by simp) (by omega)]
    simp
  · intro c maxHF hh oN s a h hne hbyhash ha1 ha hm1 hovf
    obtain ⟨a', rfl⟩ : ∃ a', a = a' + 1 := ⟨a - 1, by omega⟩
    rw [handleGetBlockHeaders]
    show headersLoop c maxHF (a' + 1) s false (decide (hh ≠ 0))
      (a' + 1) hh oN 0 0 = [h]
    rw [headersLoop]
    rw [if_pos ⟨by rw [u64ToInt_small ha]; exact_mod_cast Nat.succ_pos a',
      by simp [softResponseLimit], hm1⟩]
    simp [hne, hbyhash, hovf]

/-- A chain view answering header-by-hash lookups only at hash 5, with a
header whose number sits at the top of the `uint64` range. -/
def chainHashDemo : ChainView where
  getHeaderByHash := fun hh => if hh = 5 then some ⟨U64 - 1, 0, 7⟩ else none
  getHeaderByNumber := fun _ => none
  getHeader := fun _ _ => none
  getBlockHashesFromHash := fun _ _ => []

/-- Witness for the amended C2: a by-number forward query wrapping past
`2^64` keeps going at the wrapped numbers, while a hash-forward query
whose advance wraps is cut to the single gathered header. -/
theorem c2_skip_overflow_amended_witness :
    (handleGetBlockHeaders chainAllHeaders 192 ⟨0, U64 - 1, 3, 0, false⟩
        = [⟨U64 - 1, 0, 0⟩, ⟨0, 0, 0⟩, ⟨1, 0, 0⟩]) ∧
      handleGetBlockHeaders chainHashDemo 192 ⟨5, 0, 2, 0, false⟩
        = [⟨U64 - 1, 0, 7⟩] := by
  constructor
  · rw [c2_skip_overflow_amended.1 chainAllHeaders 192 (U64 - 1) 0 3
      (by norm_num)]
    decide
  · exact c2_skip_overflow_amended.2 chainHashDemo 192 5 0 0 2 ⟨U64 - 1, 0, 7⟩
      (by norm_num) (by rfl) (by norm_num) (by norm_num) (by norm_num)
      (by decide)

/-- A block as seen by the protocol manager: hash, number, parent hash
and difficulty (a `big.Int`, modelled as `Int`). -/
structure Block where
  hash : Nat
  number : Nat
  parentHash : Nat
  difficulty : Int
deriving DecidableEq, Repr

/-- The block-level read interface of the local chain consumed by the
broadcast and `NewBlockMsg` paths: `GetBlock`, `GetTd`, `HasBlock` and
`CurrentBlock`. -/
structure BlockChainView where
  getBlock : Nat → Nat → Option Block
  getTd : Nat → Nat → Int
  hasBlock : Nat → Nat → Bool
  currentBlock : Block

/-- Outcome of the `NewBlockMsg` case of `handleMsg`: the receive-peer
stamped on the block, the hash marked known on the peer, the
`(peer, block)` pair handed to the fetcher's `Enqueue`, the peer's head
snapshot after the message, and whether a synchronise was spawned. -/
structure NewBlockOutcome where
  receivedFrom : Nat
  markedBlock : Nat
  enqueued : Nat × Nat
  peerHead : Nat × Int
  syncTriggered : Bool
deriving DecidableEq, Repr

/-- The `NewBlockMsg` case of `handleMsg`: stamp the receive peer, mark
the block known, enqueue it into the fetcher; compute
`trueTD = td - block.difficulty` and `trueHead = block.parentHash`;
update the peer's head snapshot only when `trueTD` exceeds the peer's
previously recorded TD, and spawn a synchronise (inside that branch)
only when `trueTD` also exceeds the TD of the local head block.  The
receive timestamp (`msg.ReceivedAt`) is wall-clock data outside the
model. -/
def handleNewBlockMsg (c : BlockChainView) (peerId : Nat)
    (peerHead : Nat) (peerTd : Int) (b : Block) (td : Int) : NewBlockOutcome :=
  let trueHead := b.parentHash
  let trueTD := td - b.difficulty
  if peerTd < trueTD then
    { receivedFrom := peerId, markedBlock := b.hash,
      enqueued := (peerId, b.hash), peerHead := (trueHead, trueTD),
      syncTriggered :=
        decide (c.getTd c.currentBlock.hash c.currentBlock.number < trueTD) }
  else
    { receivedFrom := peerId, markedBlock := b.hash,
      enqueued := (peerId, b.hash), peerHead := (peerHead, peerTd),
      syncTriggered := false }

/-- A concrete chain for the NewBlock counterexample: every stored TD is
0 and the current head is block 1. -/
def chainNewBlockDemo : BlockChainView where
  getBlock := fun _ _ => none
  getTd := fun _ _ => 0
  hasBlock := fun _ _ => false
  currentBlock := ⟨1, 0, 0, 0⟩

/-- C5 counterexample: block with difficulty 10 and parent hash 7
announced with td = 105 by a peer whose recorded head is (42, 100).  The
claim's conditions hold — 105 > local-td-of-(parent, number-1) +
difficulty = 0 + 10, and the advertised TD 105 exceeds the local head's
TD 0 — yet the code leaves the head snapshot at (42, 100) (because
trueTD = 105 - 10 = 95 does not exceed the peer's previous TD 100) and
spawns no synchronise. -/
theorem c5_new_block_counterexample :
    ((105 : Int) > chainNewBlockDemo.getTd 7 4 + (10 : Int)) ∧
    ((105 : Int) > chainNewBlockDemo.getTd chainNewBlockDemo.currentBlock.hash
        chainNewBlockDemo.currentBlock.number) ∧
    (handleNewBlockMsg chainNewBlockDemo 3 42 100 ⟨9, 5, 7, 10⟩ 105).peerHead
      = (42, 100) ∧
    (handleNewBlockMsg chainNewBlockDemo 3 42 100 ⟨9, 5, 7, 10⟩ 105).syncTriggered
      = false := by
  refine ⟨by decide, by decide, by decide, by decide⟩

/-- C5 (amended): on every NewBlock message the handler stamps the
receive peer, marks the hash known on the peer, and enqueues the block
into the fetcher; the peer's head snapshot is updated to the block's
parent hash with `trueTD = td - difficulty` exactly when `trueTD`
exceeds the peer's previously recorded TD, and a synchronise is
triggered exactly when additionally `trueTD` exceeds the local head
block's TD. -/
theorem c5_new_block_amended (c : BlockChainView) (peerId peerHead : Nat)
    (peerTd td : Int) (b : Block) :
    (handleNewBlockMsg c peerId peerHead peerTd b td).receivedFrom = peerId ∧
    (handleNewBlockMsg c peerId peerHead peerTd b td).markedBlock = b.hash ∧
    (handleNewBlockMsg c peerId peerHead peerTd b td).enqueued = (peerId, b.hash) ∧
    (handleNewBlockMsg c peerId peerHead peerTd b td).peerHead
      = (if peerTd < td - b.difficulty then (b.parentHash, td - b.difficulty)
         else (peerHead, peerTd)) ∧
    ((handleNewBlockMsg c peerId peerHead peerTd b td).syncTriggered = true ↔
      (peerTd < td - b.difficulty ∧
        c.getTd c.currentBlock.hash c.currentBlock.number < td - b.difficulty)) := by
  unfold handleNewBlockMsg
  by_cases h : peerTd < td - b.difficulty <;> simp [h]

/-- Witness for the amended C5: the conditions of the update branch are
satisfiable — with peer TD 90 and announced td 105 on a difficulty-10
block, the head moves to (7, 95) and a synchronise fires. -/
theorem c5_new_block_amended_witness :
    (handleNewBlockMsg chainNewBlockDemo 3 42 90 ⟨9, 5, 7, 10⟩ 105).peerHead
        = (7, 95) ∧
      (handleNewBlockMsg chainNewBlockDemo 3 42 90 ⟨9, 5, 7, 10⟩ 105).syncTriggered
        = true := by
  have h := c5_new_block_amended chainNewBlockDemo 3 42 90 105 ⟨9, 5, 7, 10⟩
  exact ⟨by rw [h.2.2.2.1]; decide, h.2.2.2.2.mpr ⟨by decide, by decide⟩⟩

/-- A transaction, opaque except for its hash. -/
structure Tx where
  hash : Nat
deriving DecidableEq, Repr

/-- Outcome of the `TxMsg` case of `handleMsg`: whether the handler
returned an error (dropping the peer), which hashes were marked known on
the peer, and the batch submitted to the pool's `AddRemotes` (`none` if
`AddRemotes` was never called).  `AddRemotes`' per-transaction error
list is discarded by the source (`pm.txpool.AddRemotes(txs)` in
statement position), so it does not appear as an input. -/
structure TxOutcome where
  errored : Bool
  marked : List Nat
  addRemotes : Option (List (Option Tx))
deriving DecidableEq, Repr

/-- The `for i, tx := range txs` marking loop of the `TxMsg` case: a nil
transaction (`none`) aborts with an `ErrDecode` error; otherwise every
hash is marked.  Returns the marked hashes and whether the loop
completed. -/
def markTxLoop : List (Option Tx) → List Nat × Bool
  | [] => ([], true)
  | none :: _ => ([], false)
  | some tx :: rest =>
    let r := markTxLoop rest
    (tx.hash :: r.1, r.2)

/-- The `TxMsg` case of `handleMsg`: if `acceptTxs` is unset the message
is dropped silently (`break` before even decoding); otherwise each
transaction is marked known on the peer (a nil entry returns an error)
and the whole batch goes to `AddRemotes`. -/
def handleTxMsg (acceptTxs : Bool) (txs : List (Option Tx)) : TxOutcome :=
  if acceptTxs = false then ⟨false, [], none⟩
  else
    let r := markTxLoop txs
    if r.2 then ⟨false, r.1, some txs⟩ else ⟨true, r.1, none⟩

/-- C6: while `acceptTxs` is 0 a Tx message returns without error and
the pool's `AddRemotes` is never called; with `acceptTxs` set, every
transaction of a successfully decoded batch (no nil entries) is marked
known on the peer and the whole batch is submitted to `AddRemotes`,
without error — the pool's per-transaction errors are discarded by the
handler and can neither abort the batch nor disconnect the peer. -/
theorem c6_tx_accept_gate :
    (∀ txs : List (Option Tx), handleTxMsg false txs = ⟨false, [], none⟩) ∧
    (∀ txs : List Tx,
      handleTxMsg true (txs.map some)
        = ⟨false, txs.map Tx.hash, some (txs.map some)⟩) := by
  constructor
  · intro txs; rfl
  · intro txs
    have hml : ∀ l : List Tx, markTxLoop (l.map some) = (l.map Tx.hash, true) := by
      intro l
      induction l with
      | nil => rfl
      | cons t l ih => simp [markTxLoop, ih]
    simp [handleTxMsg, hml]

/-- Protocol-manager flag state: `fastSync` and `acceptTxs` (the two
`uint32` atomics, each used as a boolean). -/
structure PMState where
  fastSync : Bool
  acceptTxs : Bool
deriving DecidableEq, Repr

/-- The operations of the source that can touch the flags:
`fetcherInsert` is the fetcher's inserter callback built in
`NewProtocolManager` (discard the blocks when fast sync is active,
otherwise mark initial sync done by storing `acceptTxs := 1` and insert);
`otherMsg` stands for every other handler path in the source, none of
which assigns `acceptTxs`. -/
inductive PMEvent where
  | fetcherInsert
  | otherMsg
deriving DecidableEq, Repr

/-- One step of the flag state machine. -/
def pmStep : PMState → PMEvent → PMState
  | s, .fetcherInsert => if s.fastSync then s else { s with acceptTxs := true }
  | s, .otherMsg => s

/-- `NewProtocolManager` leaves `acceptTxs` at its zero value. -/
def pmInit (fastSyncMode : Bool) : PMState := ⟨fastSyncMode, false⟩

/-- A run of the protocol manager, as a fold of events over the state. -/
def pmRun (s : PMState) (evs : List PMEvent) : PMState := evs.foldl pmStep s

/-- C9: `acceptTxs` starts at 0, is written only by the fetcher inserter
(which sets it to 1 exactly when fast sync is inactive), and is never
reset: once true it stays true over any run. -/
theorem c9_acceptTxs_monotone :
    (∀ m, (pmInit m).acceptTxs = false) ∧
    (∀ s e, (pmStep s e).acceptTxs
        = (s.acceptTxs || (decide (e = PMEvent.fetcherInsert) && !s.fastSync))) ∧
    (∀ s evs, s.acceptTxs = true → (pmRun s evs).acceptTxs = true) := by
  refine ⟨fun _ => rfl, ?_, ?_⟩
  · rintro ⟨fs, ac⟩ e
    cases e <;> cases fs <;> cases ac <;> rfl
  · intro s evs
    induction evs generalizing s with
    | nil => intro h; exact h
    | cons e evs ih =>
      intro h
      refine ih (pmStep s e) ?_
      rcases s with ⟨fs, ac⟩
      cases e <;> cases fs <;> simp_all [pmStep]

/-- Witness for C9: a run that enables `acceptTxs` via a fetcher import
keeps it enabled across further events. -/
theorem c9_acceptTxs_monotone_witness :
    (pmRun ⟨false, true⟩
      [PMEvent.otherMsg, PMEvent.fetcherInsert, PMEvent.otherMsg]).acceptTxs
      = true :=
  c9_acceptTxs_monotone.2.2 ⟨false, true⟩ _ rfl

/-- A connected peer: its id and its known-block set (the bounded set of
recently seen block hashes). -/
structure Peer where
  id : Nat
  knownBlocks : List Nat
deriving DecidableEq, Repr

/-- `peerSet.PeersWithoutBlock(hash)`: the registered peers whose
known-block set does not contain the hash. -/
def peersWithoutBlock (ps : List Peer) (h : Nat) : List Peer :=
  ps.filter (fun p => decide (h ∉ p.knownBlocks))

/-- Modelled from the spec: the peer object (`peer.go`) with its
`AsyncSendNewBlock` / `AsyncSendNewBlockHash` queues is not under
`src/`.  Per §3 each peer keeps a set of recently seen block hashes and
per §8 the announce pass reaches exactly the peers not in the propagate
pass, so an async block send marks the block hash known on the
recipient peer.  `markBlockOn ps ids h` marks `h` known on every peer
whose id is in `ids`. -/
def markBlockOn (ps : List Peer) (ids : List Nat) (h : Nat) : List Peer :=
  ps.map (fun p =>
    if p.id ∈ ids then { p with knownBlocks := h :: p.knownBlocks } else p)

/-- A send enqueued on some peer's async queue: either the full block
with its total difficulty, or a hash+number announcement. -/
inductive Send where
  | fullBlock (peerId : Nat) (blockHash : Nat) (td : Int)
  | announce (peerId : Nat) (blockHash : Nat) (number : Nat)
deriving DecidableEq, Repr

/-- `BroadcastBlock(block, propagate)`: compute the peers lacking the
block; if propagating, compute the block's TD from its parent (bailing
out on a dangling block) and send the full block to the first
`⌊√len(peers)⌋` of them; otherwise announce hash+number to all of them,
but only if the block is already in the local chain.  `Nat.sqrt` models
`int(math.Sqrt(float64(n)))`, with which it agrees for every peer-set
size (exactly rounded `float64` square roots cannot cross an integer
below `2^52`); `(number + (2^64-1)) % 2^64` models the wrapping
`block.NumberU64() - 1`. -/
def broadcastBlock (c : BlockChainView) (ps : List Peer) (b : Block)
    (propagate : Bool) : List Peer × List Send :=
  let hash := b.hash
  let peers := peersWithoutBlock ps hash
  if propagate then
    match c.getBlock b.parentHash ((b.number + (U64 - 1)) % U64) with
    | some _ =>
      let td := b.difficulty + c.getTd b.parentHash ((b.number + (U64 - 1)) % U64)
      let transfer := peers.take (Nat.sqrt peers.length)
      (markBlockOn ps (transfer.map Peer.id) hash,
        transfer.map (fun p => Send.fullBlock p.id hash td))
    | none => (ps, [])
  else
    if c.hasBlock hash b.number then
      (markBlockOn ps (peers.map Peer.id) hash,
        peers.map (fun p => Send.announce p.id hash b.number))
    else (ps, [])

/-- One `NewMinedBlockEvent` arriving in `minedBroadcastLoop`: first
propagate the block to peers, only then announce to the rest. -/
def minedBroadcastStep (c : BlockChainView) (ps : List Peer) (b : Block) :
    List Peer × List Send :=
  let r1 := broadcastBlock c ps b true
  let r2 := broadcastBlock c r1.1 b false
  (r2.1, r1.2 ++ r2.2)

lemma peersWithoutBlock_markBlockOn (h : Nat) (ids : List Nat) :
    ∀ ps : List Peer,
      peersWithoutBlock (markBlockOn ps ids h) h
        = (peersWithoutBlock ps h).filter (fun p => decide (p.id ∉ ids)) := by
  intro ps
  induction ps with
  | nil => rfl
  | cons p ps ih =>
    simp only [markBlockOn, List.map_cons, peersWithoutBlock,
      List.filter_cons] at *
    by_cases hid : p.id ∈ ids <;> by_cases hkb : h ∈ p.knownBlocks <;>
      simp [hid, hkb, List.filter_filter] at ih ⊢ <;> exact ih

lemma filter_id_not_take (k : Nat) :
    ∀ l : List Peer, (l.map Peer.id).Nodup →
      l.filter (fun p => decide (p.id ∉ (l.take k).map Peer.id)) = l.drop k := by
  induction k with
  | zero => intro l _; simp
  | succ k ih =>
    intro l hnd
    cases l with
    | nil => rfl
    | cons p l =>
      simp only [List.take_succ_cons, List.map_cons, List.drop_succ_cons,
        List.filter_cons]
      rw [List.map_cons, List.nodup_cons] at hnd
      have hp : (decide (p.id ∉ p.id :: (l.take k).map Peer.id)) = false := by
        simp
      rw [hp]
      have hcongr : ∀ q ∈ l,
          (decide (q.id ∉ p.id :: (l.take k).map Peer.id))
            = (decide (q.id ∉ (l.take k).map Peer.id)) := by
        intro q hq
        have hne : q.id ≠ p.id := fun he =>
          hnd.1 (he ▸ List.mem_map_of_mem Peer.id hq)
        simp [hne]
      rw [List.filter_congr hcongr, ih l hnd.2]
      simp

/-- C3: on a `NewMinedBlockEvent` the manager runs two sequential
passes: the propagate pass sends the full block with its computed TD to
exactly the first `⌊√n⌋` of the `n` peers lacking the block, and only
afterwards the announce pass — which runs only if the block is already
in the local chain — sends a hash+number announcement to exactly the
remaining peers that lack it.  Hypotheses: peer ids are distinct and the
block's parent is in the chain (a dangling block aborts the propagate
pass instead). -/
theorem c3_mined_block_broadcast (c : BlockChainView) (ps : List Peer)
    (b : Block) (hnd : (ps.map Peer.id).Nodup)
    (hpar : (c.getBlock b.parentHash ((b.number + (U64 - 1)) % U64)).isSome) :
    (c.hasBlock b.hash b.number = true →
      (minedBroadcastStep c ps b).2
        = ((peersWithoutBlock ps b.hash).take
              (Nat.sqrt (peersWithoutBlock ps b.hash).length)).map
            (fun p => Send.fullBlock p.id b.hash
              (b.difficulty + c.getTd b.parentHash ((b.number + (U64 - 1)) % U64)))
          ++ ((peersWithoutBlock ps b.hash).drop
              (Nat.sqrt (peersWithoutBlock ps b.hash).length)).map
            (fun p => Send.announce p.id b.hash b.number)) ∧
    (c.hasBlock b.hash b.number = false →
      (minedBroadcastStep c ps b).2
        = ((peersWithoutBlock ps b.hash).take
              (Nat.sqrt (peersWithoutBlock ps b.hash).length)).map
            (fun p => Send.fullBlock p.id b.hash
              (b.difficulty + c.getTd b.parentHash ((b.number + (U64 - 1)) % U64)))) ∧
    ((peersWithoutBlock ps b.hash).take
        (Nat.sqrt (peersWithoutBlock ps b.hash).length)).length
      = Nat.sqrt (peersWithoutBlock ps b.hash).length ∧
    ((peersWithoutBlock ps b.hash).drop
        (Nat.sqrt (peersWithoutBlock ps b.hash).length)).length
      = (peersWithoutBlock ps b.hash).length
        - Nat.sqrt (peersWithoutBlock ps b.hash).length := by
  obtain ⟨pb, hpb⟩ := Option.isSome_iff_exists.mp hpar
  have hwd : ((peersWithoutBlock ps b.hash).map Peer.id).Nodup :=
    hnd.sublist (List.Sublist.map _ (List.filter_sublist ps))
  have hkey : peersWithoutBlock (markBlockOn ps
      (((peersWithoutBlock ps b.hash).take
        (Nat.sqrt (peersWithoutBlock ps b.hash).length)).map Peer.id) b.hash)
        b.hash
      = (peersWithoutBlock ps b.hash).drop
          (Nat.sqrt (peersWithoutBlock ps b.hash).length) := by
    rw [peersWithoutBlock_markBlockOn]
    exact filter_id_not_take _ _ hwd
  refine ⟨?_, ?_, ?_, ?_⟩
  · intro hhas
    simp only [minedBroadcastStep, broadcastBlock, hpb]
    simp only [if_pos rfl, reduceIte]
    rw [hkey, hhas]
    simp
  · intro hhas
    simp only [minedBroadcastStep, broadcastBlock, hpb]
    simp only [if_pos rfl, reduceIte]
    rw [hkey, hhas]
    simp
  · rw [List.length_take]
    exact Nat.min_eq_left (Nat.sqrt_le_self _)
  · exact List.length_drop _ _

/-- Sixteen peers, ids 0–15, none of which knows any block. -/
def ps16 : List Peer := (List.range 16).map (fun i => ⟨i, []⟩)

/-- A chain containing the mined block's parent (TD 50 everywhere) and
the block itself. -/
def chainMinedDemo : BlockChainView where
  getBlock := fun _ _ => some ⟨98, 4, 97, 40⟩
  getTd := fun _ _ => 50
  hasBlock := fun _ _ => true
  currentBlock := ⟨98, 4, 97, 40⟩

/-- The freshly mined block: hash 99, number 5, parent 98, difficulty 10. -/
def minedBlockDemo : Block := ⟨99, 5, 98, 10⟩

/-- Witness for C3: with 16 peers, none knowing the block, the propagate
pass sends the full block (TD 60) to exactly 4 peers and the announce
pass reaches exactly the remaining 12. -/
theorem c3_mined_block_broadcast_witness :
    (minedBroadcastStep chainMinedDemo ps16 minedBlockDemo).2
      = [Send.fullBlock 0 99 60, Send.fullBlock 1 99 60,
         Send.fullBlock 2 99 60, Send.fullBlock 3 99 60,
         Send.announce 4 99 5, Send.announce 5 99 5, Send.announce 6 99 5,
         Send.announce 7 99 5, Send.announce 8 99 5, Send.announce 9 99 5,
         Send.announce 10 99 5, Send.announce 11 99 5, Send.announce 12 99 5,
         Send.announce 13 99 5, Send.announce 14 99 5,
         Send.announce 15 99 5] := by
  rw [(c3_mined_block_broadcast chainMinedDemo ps16 minedBlockDemo
    (by decide) (by decide)).1 rfl]
  have hlen : (peersWithoutBlock ps16 minedBlockDemo.hash).length = 16 := by
    decide
  rw [hlen, show Nat.sqrt 16 = 4 from (Nat.eq_sqrt.mpr (by norm_num)).symm]
  decide

/-- Outcome of the `BlockHeadersMsg` case of `handleMsg`: whether the
handler returned an error (dropping the peer), the state of the
fork-check timer afterwards, whether the fetcher's `FilterHeaders` was
consulted, and the batch delivered to the downloader (`none` if
`DeliverHeaders` was not called). -/
structure HeadersOutcome where
  dropPeer : Bool
  forkDropArmed : Bool
  fetcherFiltered : Bool
  downloaderDelivery : Option (List Header)
deriving DecidableEq, Repr

/-- The `BlockHeadersMsg` case of `handleMsg`.  `daoForkBlock` is the
configured hard-fork number (the fork machinery only runs with the
timer armed, which requires the config to be present), `getTd` is the
chain's `GetTd`, `verifyDAOExtra` abstracts
`misc.VerifyDAOHeaderExtraData` (true = pass) and `filterHeaders`
abstracts the fetcher's `FilterHeaders` (returning the unconsumed
residue).  An empty reply with the timer armed is tolerated unless the
peer's TD proves it should have answered; a single-header reply is
routed to the fork validation only while armed **and** when the
header's number equals the fork block; otherwise it goes through the
fetcher filter, and any residue (or any non-single batch) goes to the
downloader. -/
def handleBlockHeaders (c : ChainView) (getTd : Nat → Nat → Int)
    (daoForkBlock : Nat) (verifyDAOExtra : Header → Bool)
    (filterHeaders : List Header → List Header)
    (peerTd : Int) (armed : Bool) (headers : List Header) : HeadersOutcome :=
  if headers.length = 0 ∧ armed = true then
    let verifyDAO :=
      match c.getHeaderByNumber daoForkBlock with
      | some daoHeader =>
        if getTd daoHeader.hash daoHeader.number ≤ peerTd then false else true
      | none => true
    if verifyDAO then
      -- same side of the fork: stop the timer, keep the peer
      { dropPeer := false, forkDropArmed := false, fetcherFiltered := false,
        downloaderDelivery := none }
    else
      -- fall through: filter = false, the empty batch goes to the downloader
      { dropPeer := false, forkDropArmed := armed, fetcherFiltered := false,
        downloaderDelivery := some headers }
  else
    match headers with
    | [h] =>
      if armed = true ∧ h.number = daoForkBlock then
        if verifyDAOExtra h then
          { dropPeer := false, forkDropArmed := false, fetcherFiltered := false,
            downloaderDelivery := none }
        else
          { dropPeer := true, forkDropArmed := false, fetcherFiltered := false,
            downloaderDelivery := none }
      else
        let residue := filterHeaders [h]
        if residue.length > 0 then
          { dropPeer := false, forkDropArmed := armed, fetcherFiltered := true,
            downloaderDelivery := some residue }
        else
          { dropPeer := false, forkDropArmed := armed, fetcherFiltered := true,
            downloaderDelivery := none }
    | hs =>
      { dropPeer := false, forkDropArmed := armed, fetcherFiltered := false,
        downloaderDelivery := some hs }

/-- A chain view that knows the header at the DAO fork number 1920000
(hash 11) and nothing else. -/
def chainDaoDemo : ChainView where
  getHeaderByHash := fun _ => none
  getHeaderByNumber := fun n => if n = 1920000 then some ⟨1920000, 0, 11⟩ else none
  getHeader := fun _ _ => none
  getBlockHashesFromHash := fun _ _ => []

/-- C4 counterexample: with the fork timer armed and fork block 1920000,
a single-header reply at number 5 is NOT routed to the fork extra-data
validation: even with a validator that rejects everything the handler
neither drops the peer nor cancels the timer — it hands the header to
the fetcher filter and leaves the timer armed. -/
theorem c4_fork_check_counterexample :
    handleBlockHeaders chainDaoDemo (fun _ _ => 7) 1920000 (fun _ => false)
        (fun hs => hs) 3 true [⟨5, 0, 0⟩]
      = { dropPeer := false, forkDropArmed := true, fetcherFiltered := true,
          downloaderDelivery := some [⟨5, 0, 0⟩] } ∧
    ¬ ((handleBlockHeaders chainDaoDemo (fun _ _ => 7) 1920000 (fun _ => false)
          (fun hs => hs) 3 true [⟨5, 0, 0⟩]).dropPeer = true ∨
       (handleBlockHeaders chainDaoDemo (fun _ _ => 7) 1920000 (fun _ => false)
          (fun hs => hs) 3 true [⟨5, 0, 0⟩]).forkDropArmed = false) := by
  refine ⟨by decide, by decide⟩

/-- C4 (amended): while the fork-check timer is armed, a single-header
reply **whose number equals the fork block number** is routed to the
fork extra-data validation — on pass the timer is cancelled and the
loop continues, on fail the handler returns an error (timer cancelled,
peer dropped); an empty reply is tolerated (timer cancelled, peer kept)
whenever the peer's advertised TD is below the local TD at the fork
block number. -/
theorem c4_fork_check_amended (c : ChainView) (getTd : Nat → Nat → Int)
    (dao : Nat) (vfy : Header → Bool) (flt : List Header → List Header)
    (peerTd : Int) (h : Header) :
    (h.number = dao →
      (vfy h = true →
        handleBlockHeaders c getTd dao vfy flt peerTd true [h]
          = { dropPeer := false, forkDropArmed := false,
              fetcherFiltered := false, downloaderDelivery := none }) ∧
      (vfy h = false →
        handleBlockHeaders c getTd dao vfy flt peerTd true [h]
          = { dropPeer := true, forkDropArmed := false,
              fetcherFiltered := false, downloaderDelivery := none })) ∧
    (∀ dh, c.getHeaderByNumber dao = some dh →
      peerTd < getTd dh.hash dh.number →
      handleBlockHeaders c getTd dao vfy flt peerTd true []
        = { dropPeer := false, forkDropArmed := false,
            fetcherFiltered := false, downloaderDelivery := none }) := by
  constructor
  · intro hn
    constructor
    · intro hv
      simp [handleBlockHeaders, hn, hv]
    · intro hv
      simp [handleBlockHeaders, hn, hv]
  · intro dh hdh htd
    simp [handleBlockHeaders, hdh, not_le.mpr htd]

/-- Witness for the amended C4: at fork block 1920000 with a
single-header reply at that number, a passing validator keeps the peer
and cancels the timer, a failing one drops the peer; an empty reply
from a peer with TD 3 < 7 (the local TD at the fork block) is
tolerated. -/
theorem c4_fork_check_amended_witness :
    (handleBlockHeaders chainDaoDemo (fun _ _ => 7) 1920000 (fun _ => true)
        (fun hs => hs) 3 true [⟨1920000, 0, 0⟩]
      = { dropPeer := false, forkDropArmed := false, fetcherFiltered := false,
          downloaderDelivery := none }) ∧
    (handleBlockHeaders chainDaoDemo (fun _ _ => 7) 1920000 (fun _ => false)
        (fun hs => hs) 3 true [⟨1920000, 0, 0⟩]
      = { dropPeer := true, forkDropArmed := false, fetcherFiltered := false,
          downloaderDelivery := none }) ∧
    (handleBlockHeaders chainDaoDemo (fun _ _ => 7) 1920000 (fun _ => true)
        (fun hs => hs) 3 true []
      = { dropPeer := false, forkDropArmed := false, fetcherFiltered := false,
          downloaderDelivery := none }) :=
  ⟨((c4_fork_check_amended chainDaoDemo (fun _ _ => 7) 1920000 (fun _ => true)
      (fun hs => hs) 3 ⟨1920000, 0, 0⟩).1 rfl).1 rfl,
   ((c4_fork_check_amended chainDaoDemo (fun _ _ => 7) 1920000 (fun _ => false)
      (fun hs => hs) 3 ⟨1920000, 0, 0⟩).1 rfl).2 rfl,
   (c4_fork_check_amended chainDaoDemo (fun _ _ => 7) 1920000 (fun _ => true)
      (fun hs => hs) 3 ⟨1920000, 0, 0⟩).2 ⟨1920000, 0, 11⟩ (by decide)
      (by decide)⟩

/-- The decoded shape of a UDP verifier datagram `{BlockNum, MsgType,
Data}`: `dataConsensus` is the parse of `Data` as a consensus result
`{Result, Txs}` (the signature block abstracted to a `Nat`),
`dataNodeList` the parse of `Data` as a broadcast node list. -/
structure VerifierMsg where
  blockNum : Nat
  msgType : Nat
  dataConsensus : Option (Nat × List Tx)
  dataNodeList : Option (List Nat)
deriving DecidableEq, Repr

/-- How `AddUDPMsg` ends: a nil-error return, an `errResp` error, or a
nil-pointer dereference of the not-yet-installed verifier. -/
inductive UDPResult where
  | ok
  | err
  | nilDeref
deriving DecidableEq, Repr

/-- Observable effects of `AddUDPMsg`: its result, the transactions
forwarded to the pool, and the roster (node list, block number) sent on
the miner broadcast channel. -/
structure UDPOutcome where
  result : UDPResult
  txsToPool : List Tx
  rosterSent : Option (List Nat × Nat)
deriving DecidableEq, Repr

/-- `AddUDPMsg`: unmarshal the datagram (`none` = top-level
`json.Unmarshal` failure).  Type 1 unmarshals a consensus result,
validates it via `verifier.DposTx` — the `verifier` field is `none`
until `AddVerifier` is called, and the call then dereferences a nil
pointer (`nilDeref`) — and forwards a non-empty tx list to the pool
(`AddRemotes` errors are logged, not returned).  Type 2 unmarshals a
node list and sends it on the miner broadcast channel with no verifier
involvement.  Unknown types are logged and return nil.  The pointers
`&txData.Txs[i]` taken from a slice are never nil, so the source's
nil-transaction check cannot fire and is not modelled. -/
def addUDPMsg (verifier : Option (Nat → Bool)) (m : Option VerifierMsg) :
    UDPOutcome :=
  match m with
  | none => ⟨UDPResult.err, [], none⟩
  | some vm =>
    if vm.msgType = 1 then
      match vm.dataConsensus with
      | none => ⟨UDPResult.err, [], none⟩
      | some (result, txs) =>
        match verifier with
        | none => ⟨UDPResult.nilDeref, [], none⟩
        | some dposTx =>
          if dposTx result = false then ⟨UDPResult.err, [], none⟩
          else if txs.length = 0 then ⟨UDPResult.ok, [], none⟩
          else ⟨UDPResult.ok, txs, none⟩
    else if vm.msgType = 2 then
      match vm.dataNodeList with
      | none => ⟨UDPResult.err, [], none⟩
      | some nl => ⟨UDPResult.ok, [], some (nl, vm.blockNum)⟩
    else ⟨UDPResult.ok, [], none⟩

/-- C7 counterexample: before `AddVerifier` is called, a well-formed
type-2 (broadcast roster) datagram is NOT rejected: it returns without
error and the roster is forwarded to the miner channel. -/
theorem c7_udp_before_verifier_counterexample :
    addUDPMsg none (some ⟨9, 2, none, some [5]⟩)
      = ⟨UDPResult.ok, [], some ([5], 9)⟩ ∧
    ¬ ((addUDPMsg none (some ⟨9, 2, none, some [5]⟩)).result = UDPResult.err ∧
       (addUDPMsg none (some ⟨9, 2, none, some [5]⟩)).rosterSent = none) := by
  refine ⟨by decide, by decide⟩

/-- C7 (amended): before a verifier is installed, no transactions are
ever forwarded to the pool — but the blanket rejection does not hold:
a malformed datagram (or undecodable typed payload) returns an error;
a well-formed type-1 datagram reaches the nil verifier and dereferences
it instead of returning an error; a well-formed type-2 datagram is
processed normally, forwarding the roster to the miner channel without
error; an unknown msgType is logged and discarded without error. -/
theorem c7_udp_before_verifier_amended :
    (∀ m, (addUDPMsg none m).txsToPool = []) ∧
    (addUDPMsg none none = ⟨UDPResult.err, [], none⟩) ∧
    (∀ vm d, vm.msgType = 1 → vm.dataConsensus = some d →
      addUDPMsg none (some vm) = ⟨UDPResult.nilDeref, [], none⟩) ∧
    (∀ vm, vm.msgType = 1 → vm.dataConsensus = none →
      addUDPMsg none (some vm) = ⟨UDPResult.err, [], none⟩) ∧
    (∀ vm nl, vm.msgType = 2 → vm.dataNodeList = some nl →
      addUDPMsg none (some vm) = ⟨UDPResult.ok, [], some (nl, vm.blockNum)⟩) ∧
    (∀ vm, vm.msgType ≠ 1 → vm.msgType ≠ 2 →
      addUDPMsg none (some vm) = ⟨UDPResult.ok, [], none⟩) := by
  refine ⟨?_, rfl, ?_, ?_, ?_, ?_⟩
  · intro m
    match m with
    | none => rfl
    | some vm =>
      simp only [addUDPMsg]
      split
      · cases hdc : vm.dataConsensus with
        | none => rfl
        | some d => rfl
      · split
        · cases hnl : vm.dataNodeList with
          | none => rfl
          | some nl => rfl
        · rfl
  · intro vm d h1 h2
    simp [addUDPMsg, h1, h2]
  · intro vm h1 h2
    simp [addUDPMsg, h1, h2]
  · intro vm nl h2 hnl
    simp [addUDPMsg, h2, hnl]
  · intro vm h1 h2
    simp [addUDPMsg, h1, h2]

/-- Witness for the amended C7: concrete datagrams of each shape before
the verifier is installed. -/
theorem c7_udp_before_verifier_amended_witness :
    (addUDPMsg none (some ⟨9, 1, some (4, [⟨77⟩]), none⟩)).txsToPool = [] ∧
    addUDPMsg none (some ⟨9, 1, some (4, [⟨77⟩]), none⟩)
      = ⟨UDPResult.nilDeref, [], none⟩ ∧
    addUDPMsg none (some ⟨9, 3, none, none⟩) = ⟨UDPResult.ok, [], none⟩ :=
  ⟨c7_udp_before_verifier_amended.1 _,
   c7_udp_before_verifier_amended.2.2.1 ⟨9, 1, some (4, [⟨77⟩]), none⟩
     (4, [⟨77⟩]) rfl rfl,
   c7_udp_before_verifier_amended.2.2.2.2.2 ⟨9, 3, none, none⟩
     (by decide) (by decide)⟩

/-- A manifest path: a Go byte string. -/
abbrev MPath := List Nat

/-- `ManifestType` from the manifest source. -/
def ManifestType : String := "application/bzz-ptcifest+json"

/-- The serializable fields of a `ManifestEntry`: `Hash` (a
content-addressed key rendered as a string; `none` models the empty
string), `Path`, `ContentType`, `Mode`, `Size`, `Status`.  `ModTime` is
wall-clock data outside the model. -/
structure MEntry where
  hash : Option Nat
  path : MPath
  contentType : String
  mode : Int
  size : Int
  status : Nat
deriving DecidableEq, Repr

mutual
/-- `ptcifestTrie`: the 257-slot entry array — represented as an
association list in strictly ascending slot order, one entry per
occupied slot, which is exactly the information content of the array —
plus the cached storage hash (`nil` = must be recomputed). -/
inductive MTrie : Type where
  | mk : MSlots → Option Nat → MTrie
deriving DecidableEq, Repr
/-- The occupied slots of a trie node, in ascending slot order. -/
inductive MSlots : Type where
  | nil : MSlots
  | cons : Nat → MTrieEntry → MSlots → MSlots
deriving DecidableEq, Repr
/-- `ptcifestTrieEntry`: the serializable fields plus the in-memory
subtrie pointer. -/
inductive MTrieEntry : Type where
  | mk : MEntry → MSub → MTrieEntry
deriving DecidableEq, Repr
/-- The subtrie pointer (`Option MTrie` spelled out to keep the mutual
inductive non-nested). -/
inductive MSub : Type where
  | none : MSub
  | some : MTrie → MSub
deriving DecidableEq, Repr
end

def MTrie.slots : MTrie → MSlots
  | .mk s _ => s

def MTrie.hash : MTrie → Option Nat
  | .mk _ h => h

def MTrieEntry.me : MTrieEntry → MEntry
  | .mk e _ => e

def MTrieEntry.sub : MTrieEntry → MSub
  | .mk _ s => s

/-- The slot index a path selects: `path[0]`, or 256 for the empty
path. -/
def slotOf : MPath → Nat
  | [] => 256
  | b :: _ => b

/-- Array read `self.entries[b]`. -/
def MSlots.get : MSlots → Nat → Option MTrieEntry
  | .nil, _ => Option.none
  | .cons b e rest, i => if i = b then Option.some e else MSlots.get rest i

/-- Array write `self.entries[b] = entry` (insert keeping ascending
order, or replace). -/
def MSlots.set : MSlots → Nat → MTrieEntry → MSlots
  | .nil, i, e => .cons i e .nil
  | .cons b e0 rest, i, e =>
    if i < b then .cons i e (.cons b e0 rest)
    else if i = b then .cons b e rest
    else .cons b e0 (MSlots.set rest i e)

/-- Array write `self.entries[b] = nil`. -/
def MSlots.del : MSlots → Nat → MSlots
  | .nil, _ => .nil
  | .cons b e rest, i =>
    if i = b then MSlots.del rest i else .cons b e (MSlots.del rest i)

/-- The occupied slot indices, in order. -/
def MSlots.keys : MSlots → List Nat
  | .nil => []
  | .cons b _ rest => b :: MSlots.keys rest

/-- `getCountLast`: the number of occupied slots and the last occupied
one (ascending iteration order). -/
def MSlots.countLast : MSlots → Nat × Option MTrieEntry
  | .nil => (0, Option.none)
  | .cons _ e rest =>
    let r := MSlots.countLast rest
    (r.1 + 1, match r.2 with | Option.none => Option.some e | Option.some e' => Option.some e')

/-- The longest common prefix length of two paths (the `cpl` loop of
`addEntry`). -/
def lcp : MPath → MPath → Nat
  | a :: as, b :: bs => if a = b then lcp as bs + 1 else 0
  | _, _ => 0

/-- `addEntry` with explicit recursion fuel (the Go recursion descends
through subtries; under the structural invariants established by the
operations, `path length + 2` fuel always suffices — see the wrapper).
Every branch sets the node hash to `nil` first (`self.hash = nil`).  A
manifest-typed slot whose subtrie pointer is missing makes the descend
branch bail out like the source does on a failed lazy load; in-memory
tries built by the operations never hit that branch. -/
def addEntryF : Nat → MTrie → MTrieEntry → MTrie
  | 0, t, _ => t
  | fuel + 1, .mk slots _, entry =>
    if entry.me.path.length = 0 then
      .mk (slots.set 256 entry) Option.none
    else
      let b := slotOf entry.me.path
      match slots.get b with
      | Option.none => .mk (slots.set b entry) Option.none
      | Option.some oldentry =>
        if oldentry.me.path = entry.me.path ∧
            oldentry.me.contentType ≠ ManifestType then
          .mk (slots.set b entry) Option.none
        else
          let cpl := lcp entry.me.path oldentry.me.path
          if oldentry.me.contentType = ManifestType ∧
              cpl = oldentry.me.path.length then
            match oldentry.sub with
            | .none => .mk slots Option.none
            | .some sub =>
              let entry' := MTrieEntry.mk
                ⟨entry.me.hash, entry.me.path.drop cpl, entry.me.contentType,
                  entry.me.mode, entry.me.size, entry.me.status⟩ entry.sub
              let sub' := addEntryF fuel sub entry'
              .mk (slots.set b (MTrieEntry.mk
                ⟨Option.none, oldentry.me.path, oldentry.me.contentType,
                  oldentry.me.mode, oldentry.me.size, oldentry.me.status⟩
                (.some sub'))) Option.none
          else
            let commonPrefix := entry.me.path.take cpl
            let entry' := MTrieEntry.mk
              ⟨entry.me.hash, entry.me.path.drop cpl, entry.me.contentType,
                entry.me.mode, entry.me.size, entry.me.status⟩ entry.sub
            let oldentry' := MTrieEntry.mk
              ⟨oldentry.me.hash, oldentry.me.path.drop cpl,
                oldentry.me.contentType, oldentry.me.mode, oldentry.me.size,
                oldentry.me.status⟩ oldentry.sub
            let subtrie := addEntryF fuel
              (addEntryF fuel (.mk .nil Option.none) entry') oldentry'
            .mk (slots.set b (MTrieEntry.mk
              ⟨Option.none, commonPrefix, ManifestType, 0, 0, 0⟩
              (.some subtrie))) Option.none

/-- `addEntry`: under the slot invariants each descend level trims at
least one byte, so `path length + 2` fuel covers the recursion. -/
def addEntry (t : MTrie) (e : MTrieEntry) : MTrie :=
  addEntryF (e.me.path.length + 2) t e

/-- `deleteEntry` with explicit recursion fuel (`path length + 1`
suffices under the slot invariants, see the wrapper). -/
def deleteEntryF : Nat → MTrie → MPath → MTrie
  | 0, t, _ => t
  | fuel + 1, .mk slots _, path =>
    if path.length = 0 then .mk (slots.del 256) Option.none
    else
      let b := slotOf path
      match slots.get b with
      | Option.none => .mk slots Option.none
      | Option.some entry =>
        if entry.me.path = path then .mk (slots.del b) Option.none
        else
          let epl := entry.me.path.length
          if entry.me.contentType = ManifestType ∧ epl ≤ path.length ∧
              path.take epl = entry.me.path then
            match entry.sub with
            | .none => .mk slots Option.none
            | .some sub =>
              let sub' := deleteEntryF fuel sub (path.drop epl)
              let cl := sub'.slots.countLast
              if cl.1 < 2 then
                match cl.2 with
                | Option.none => .mk (slots.del b) Option.none
                | Option.some lastentry =>
                  .mk (slots.set b (MTrieEntry.mk
                    ⟨lastentry.me.hash, entry.me.path ++ lastentry.me.path,
                      lastentry.me.contentType, lastentry.me.mode,
                      lastentry.me.size, lastentry.me.status⟩
                    lastentry.sub)) Option.none
              else
                .mk (slots.set b (MTrieEntry.mk
                  ⟨Option.none, entry.me.path, entry.me.contentType,
                    entry.me.mode, entry.me.size, entry.me.status⟩
                  (.some sub'))) Option.none
          else .mk slots Option.none

/-- `deleteEntry` with its sufficient fuel. -/
def deleteEntry (t : MTrie) (p : MPath) : MTrie :=
  deleteEntryF (p.length + 1) t p

/-- An operation on the manifest trie: `AddEntry` or `RemoveEntry`. -/
inductive MOp where
  | add (e : MTrieEntry)
  | del (p : MPath)
deriving DecidableEq, Repr

def applyOp (t : MTrie) : MOp → MTrie
  | .add e => addEntry t e
  | .del p => deleteEntry t p

def applyOps (t : MTrie) (ops : List MOp) : MTrie := ops.foldl applyOp t

/-- The operations the manifest writer issues: added entries are stored
files — byte paths, a non-manifest content type, a set hash (the key of
the stored content), no subtrie pointer; deletions carry a byte path. -/
def ValidOp : MOp → Prop
  | .add e => (∀ x ∈ e.me.path, x < 256) ∧ e.me.contentType ≠ ManifestType ∧
      e.me.hash.isSome = true ∧ e.sub = MSub.none
  | .del p => ∀ x ∈ p, x < 256

instance : DecidablePred ValidOp := by
  intro op
  cases op <;> simp only [ValidOp] <;> infer_instance

/-- The content-addressed store (DPA) behind the manifest trie: a list
of stored manifests, keyed by position.  `put` appends and returns the
fresh key.  This captures what the claims use of content addressing:
stored data is immutable and every key ever returned stays readable.
The JSON encode/decode pair (`{"entries":[...]}`) round-trips the entry
list and is modelled as the identity on it. -/
structure Store where
  data : List (List MEntry)
deriving DecidableEq, Repr

def Store.find (st : Store) (k : Nat) : Option (List MEntry) := st.data.get? k

def Store.put (st : Store) (d : List MEntry) : Store × Nat :=
  (⟨st.data ++ [d]⟩, st.data.length)

/-- `st₂` can read everything `st₁` could. -/
def Store.Extends (st₂ st₁ : Store) : Prop :=
  ∀ k d, st₁.find k = Option.some d → st₂.find k = Option.some d

/-- The serialized form of a node: its entries' `ManifestEntry` fields
in slot order (the subtrie pointers are dropped). -/
def serializeSlots : MSlots → List MEntry
  | .nil => []
  | .cons _ e rest => e.me :: serializeSlots rest

mutual
/-- `recalcAndStore`: nothing to do when the cached hash is set;
otherwise recursively store the subtries of entries with an unset hash
(filling in their hash), serialize the entries in slot order, store the
result and cache the new key.  `none` models the nil-pointer panic of
`entry.subtrie.recalcAndStore()` on an entry with neither hash nor
subtrie. -/
def recalcAndStore : MTrie → Store → Option (MTrie × Store)
  | .mk slots h, st =>
    match h with
    | Option.some k => Option.some (.mk slots (Option.some k), st)
    | Option.none =>
      match recalcSlots slots st with
      | Option.none => Option.none
      | Option.some (slots', st') =>
        let serial := serializeSlots slots'
        let r := st'.put serial
        Option.some (.mk slots' (Option.some r.2), r.1)
/-- The entry loop of `recalcAndStore`. -/
def recalcSlots : MSlots → Store → Option (MSlots × Store)
  | .nil, st => Option.some (.nil, st)
  | .cons b e rest, st =>
    match e with
    | .mk me sub =>
      match me.hash with
      | Option.some _ =>
        match recalcSlots rest st with
        | Option.none => Option.none
        | Option.some (rest', st') =>
          Option.some (.cons b (.mk me sub) rest', st')
      | Option.none =>
        match sub with
        | .none => Option.none
        | .some t =>
          match recalcAndStore t st with
          | Option.none => Option.none
          | Option.some (t', st') =>
            match t'.hash with
            | Option.none => Option.none
            | Option.some k =>
              match recalcSlots rest st' with
              | Option.none => Option.none
              | Option.some (rest', st'') =>
                Option.some (.cons b (.mk
                  ⟨Option.some k, me.path, me.contentType, me.mode, me.size,
                    me.status⟩ (.some t')) rest', st'')
end

/-- The `addEntry` fold of `readManifest` rebuilding a node from its
stored entry list: each re-read entry starts with no subtrie pointer. -/
def buildFromEntries (entries : List MEntry) : MTrie :=
  entries.foldl (fun t me => addEntry t (.mk me .none)) (.mk .nil Option.none)

/-- `readManifest` (via `loadManifest`): retrieve the entry list for a
key and fold `addEntry` over a fresh trie. -/
def readManifest (st : Store) (k : Nat) : Option MTrie :=
  match st.find k with
  | Option.none => Option.none
  | Option.some entries => Option.some (buildFromEntries entries)

mutual
/-- The leaves of an in-memory trie: every non-manifest entry with its
re-concatenated full path, in slot order. -/
def MTrie.flatten : MTrie → MPath → List (MPath × MEntry)
  | .mk slots _, pre => MSlots.flatten slots pre
def MSlots.flatten : MSlots → MPath → List (MPath × MEntry)
  | .nil, _ => []
  | .cons _ e rest, pre => MTrieEntry.flatten e pre ++ MSlots.flatten rest pre
def MTrieEntry.flatten : MTrieEntry → MPath → List (MPath × MEntry)
  | .mk me sub, pre =>
    if me.contentType = ManifestType then
      match sub with
      | .none => []
      | .some t => MTrie.flatten t (pre ++ me.path)
    else [(pre ++ me.path, me)]
end

mutual
/-- The leaves of a possibly lazy trie, following stored subtrie
references through the store (`loadSubTrie` + recursion); each lazy
load consumes one unit of fuel, `none` on a failed load or fuel
exhaustion. -/
def trieLeaves (st : Store) : Nat → MTrie → MPath → Option (List (MPath × MEntry))
  | fuel, .mk slots _, pre => slotsLeaves st fuel slots pre
termination_by fuel t _ => (fuel, sizeOf t)
def slotsLeaves (st : Store) : Nat → MSlots → MPath → Option (List (MPath × MEntry))
  | _, .nil, _ => Option.some []
  | fuel, .cons _ e rest, pre =>
    match entryLeaves st fuel e pre, slotsLeaves st fuel rest pre with
    | Option.some l1, Option.some l2 => Option.some (l1 ++ l2)
    | _, _ => Option.none
termination_by fuel s _ => (fuel, sizeOf s)
def entryLeaves (st : Store) : Nat → MTrieEntry → MPath → Option (List (MPath × MEntry))
  | fuel, .mk me sub, pre =>
    if me.contentType = ManifestType then
      match sub with
      | .some t => trieLeaves st fuel t (pre ++ me.path)
      | .none =>
        match fuel, me.hash with
        | fuel' + 1, Option.some k =>
          match readManifest st k with
          | Option.some t => trieLeaves st fuel' t (pre ++ me.path)
          | Option.none => Option.none
        | _, _ => Option.none
    else Option.some [(pre ++ me.path, me)]
termination_by fuel e _ => (fuel, sizeOf e)
end

mutual
/-- The load-fuel needed to walk a trie: one per node level. -/
def MTrie.depth : MTrie → Nat
  | .mk slots _ => MSlots.depth slots + 1
def MSlots.depth : MSlots → Nat
  | .nil => 0
  | .cons _ e rest => max (MTrieEntry.depth e) (MSlots.depth rest)
def MTrieEntry.depth : MTrieEntry → Nat
  | .mk _ .none => 0
  | .mk _ (.some t) => MTrie.depth t
end

/-- Re-load a stored manifest and walk its leaves. -/
def manifestRoundTrip (st : Store) (fuel k : Nat) (pre : MPath) :
    Option (List (MPath × MEntry)) :=
  match readManifest st k with
  | Option.none => Option.none
  | Option.some t => trieLeaves st fuel t pre

/-- All slot keys of the tail are greater than `b`. -/
def MSlots.ltAll (b : Nat) : MSlots → Prop
  | .nil => True
  | .cons b' _ rest => b < b' ∧ MSlots.ltAll b rest

mutual
/-- Structural well-formedness of an in-memory manifest trie as
produced by `addEntry`/`deleteEntry` from the empty trie: every node
hash is still unset (nothing has been stored yet); slots are strictly
ascending and each slot index equals `slotOf` of its entry's path; path
bytes are bytes; manifest-typed entries carry an in-memory subtrie and
an unset entry hash, all other entries carry a set hash (the key of
their stored content). -/
def MTrie.WF : MTrie → Prop
  | .mk slots h => h = Option.none ∧ MSlots.WF slots
def MSlots.WF : MSlots → Prop
  | .nil => True
  | .cons b e rest => slotOf e.me.path = b ∧ MSlots.ltAll b rest ∧
      MTrieEntry.WF e ∧ MSlots.WF rest
def MTrieEntry.WF : MTrieEntry → Prop
  | .mk me sub =>
    (∀ x ∈ me.path, x < 256) ∧
    (if me.contentType = ManifestType then
      me.hash = Option.none ∧ MSub.WFS sub
    else me.hash.isSome = true)
def MSub.WFS : MSub → Prop
  | .none => False
  | .some t => MTrie.WF t
end

lemma Store.Extends.refl (st : Store) : Store.Extends st st := fun _ _ h => h

lemma Store.Extends.trans {st₁ st₂ st₃ : Store} (h₂ : Store.Extends st₃ st₂)
    (h₁ : Store.Extends st₂ st₁) : Store.Extends st₃ st₁ :=
  fun k d h => h₂ k d (h₁ k d h)

lemma Store.find_put (st : Store) (d : List MEntry) :
    (st.put d).1.find (st.put d).2 = Option.some d := by
  simp [Store.put, Store.find, List.get?_concat_length]

lemma Store.extends_put (st : Store) (d : List MEntry) :
    Store.Extends (st.put d).1 st := by
  intro k d' h
  simp only [Store.put, Store.find] at *
  have hk : k < st.data.length := by
    by_contra hge
    rw [List.get?_eq_none.mpr (by omega)] at h
    exact Option.noConfusion h
  rw [List.get?_append hk]
  exact h

lemma lcp_le_left : ∀ a b : MPath, lcp a b ≤ a.length := by
  intro a
  induction a with
  | nil => intro b; cases b <;> simp [lcp]
  | cons x as ih =>
    intro b
    cases b with
    | nil => simp [lcp]
    | cons y bs =>
      by_cases hxy : x = y <;> simp [lcp, hxy]
      exact ih bs

lemma lcp_le_right : ∀ a b : MPath, lcp a b ≤ b.length := by
  intro a
  induction a with
  | nil => intro b; cases b <;> simp [lcp]
  | cons x as ih =>
    intro b
    cases b with
    | nil => simp [lcp]
    | cons y bs =>
      by_cases hxy : x = y <;> simp [lcp, hxy]
      exact ih bs

lemma lcp_pos_of_head_eq {x : Nat} {as bs : MPath} :
    1 ≤ lcp (x :: as) (x :: bs) := by
  simp [lcp]

lemma lcp_eq_of_drops_nil : ∀ a b : MPath,
    a.drop (lcp a b) = [] → b.drop (lcp a b) = [] → a = b := by
  intro a
  induction a with
  | nil =>
    intro b ha hb
    cases b with
    | nil => rfl
    | cons y bs => simp [lcp] at hb
  | cons x as ih =>
    intro b ha hb
    cases b with
    | nil => simp [lcp] at ha
    | cons y bs =>
      by_cases hxy : x = y
      · subst hxy
        simp only [lcp, if_pos rfl, List.drop_succ_cons] at ha hb
        rw [ih bs ha hb]
      · simp [lcp, hxy] at ha

lemma lcp_drop_slot_ne : ∀ a b : MPath, a.drop (lcp a b) ≠ [] →
    b.drop (lcp a b) ≠ [] →
    slotOf (a.drop (lcp a b)) ≠ slotOf (b.drop (lcp a b)) := by
  intro a
  induction a with
  | nil => intro b ha _; simp at ha
  | cons x as ih =>
    intro b ha hb
    cases b with
    | nil => simp [lcp] at hb
    | cons y bs =>
      by_cases hxy : x = y
      · subst hxy
        simp only [lcp, if_pos rfl, List.drop_succ_cons] at *
        exact ih bs ha hb
      · simp only [lcp, if_neg hxy, List.drop_zero]
        simpa [slotOf] using hxy

lemma lcp_self : ∀ a : MPath, lcp a a = a.length := by
  intro a
  induction a with
  | nil => rfl
  | cons x as ih => simp [lcp, ih]

lemma slotOf_take {p : MPath} {n : Nat} (h : 1 ≤ n) :
    slotOf (p.take n) = slotOf p := by
  cases p with
  | nil => simp
  | cons x xs =>
    obtain ⟨m, rfl⟩ : ∃ m, n = m + 1 := ⟨n - 1, by omega⟩
    rfl

lemma MSlots.ltAll_mono : ∀ (slots : MSlots) (b c : Nat),
    MSlots.ltAll b slots → c < b → MSlots.ltAll c slots
  | .nil, _, _, _, _ => trivial
  | .cons b' e rest, b, c, h, hc =>
    ⟨by have := h.1; omega, MSlots.ltAll_mono rest b c h.2 hc⟩

lemma MSlots.ltAll_set : ∀ (slots : MSlots) (c b : Nat) (e : MTrieEntry),
    MSlots.ltAll c slots → c < b → MSlots.ltAll c (MSlots.set slots b e)
  | .nil, c, b, e, _, hc => ⟨hc, trivial⟩
  | .cons b' e' rest, c, b, e, h, hc => by
    simp only [MSlots.set]
    split
    · exact ⟨hc, h⟩
    · split
      · exact ⟨h.1, h.2⟩
      · exact ⟨h.1, MSlots.ltAll_set rest c b e h.2 hc⟩

lemma MSlots.ltAll_del : ∀ (slots : MSlots) (c b : Nat),
    MSlots.ltAll c slots → MSlots.ltAll c (MSlots.del slots b)
  | .nil, _, _, _ => trivial
  | .cons b' e' rest, c, b, h => by
    simp only [MSlots.del]
    split
    · exact MSlots.ltAll_del rest c b h.2
    · exact ⟨h.1, MSlots.ltAll_del rest c b h.2⟩

lemma MSlots.WF_set : ∀ (slots : MSlots) (b : Nat) (e : MTrieEntry),
    MSlots.WF slots → slotOf e.me.path = b → MTrieEntry.WF e →
    MSlots.WF (MSlots.set slots b e)
  | .nil, b, e, _, hs, he => ⟨hs, trivial, he, trivial⟩
  | .cons b' e' rest, b, e, h, hs, he => by
    obtain ⟨hslot', hlt', hwf', hrest'⟩ := h
    simp only [MSlots.set]
    split
    · next h1 =>
      exact ⟨hs, ⟨h1, MSlots.ltAll_mono rest b' b hlt' h1⟩,
        he, hslot', hlt', hwf', hrest'⟩
    · split
      · next _ h2 =>
        subst h2
        exact ⟨hs, hlt', he, hrest'⟩
      · next h1 h2 =>
        refine ⟨hslot', MSlots.ltAll_set rest b' b e hlt' (by omega), hwf',
          MSlots.WF_set rest b e hrest' hs he⟩

lemma MSlots.WF_del : ∀ (slots : MSlots) (b : Nat),
    MSlots.WF slots → MSlots.WF (MSlots.del slots b)
  | .nil, _, _ => trivial
  | .cons b' e' rest, b, h => by
    obtain ⟨hslot', hlt', hwf', hrest'⟩ := h
    simp only [MSlots.del]
    split
    · exact MSlots.WF_del rest b hrest'
    · exact ⟨hslot', MSlots.ltAll_del rest b' b hlt', hwf',
        MSlots.WF_del rest b hrest'⟩

lemma MSlots.get_some_WF : ∀ (slots : MSlots) (b : Nat) (e : MTrieEntry),
    MSlots.WF slots → MSlots.get slots b = Option.some e →
    MTrieEntry.WF e ∧ slotOf e.me.path = b
  | .nil, b, e, _, hg => Option.noConfusion hg
  | .cons b' e' rest, b, e, h, hg => by
    obtain ⟨hslot', _, hwf', hrest'⟩ := h
    simp only [MSlots.get] at hg
    split at hg
    · next heq =>
      cases hg
      exact ⟨hwf', heq ▸ hslot'⟩
    · exact MSlots.get_some_WF rest b e hrest' hg

lemma MSlots.countLast_some_WF : ∀ (slots : MSlots) (e : MTrieEntry),
    MSlots.WF slots → (MSlots.countLast slots).2 = Option.some e →
    MTrieEntry.WF e
  | .nil, e, _, hg => Option.noConfusion hg
  | .cons b' e' rest, e, h, hg => by
    obtain ⟨_, _, hwf', hrest'⟩ := h
    simp only [MSlots.countLast] at hg
    cases hr : (MSlots.countLast rest).2 with
    | none => rw [hr] at hg; cases hg; exact hwf'
    | some e'' => rw [hr] at hg; cases hg; exact MSlots.countLast_some_WF rest e hrest' hr

lemma slotOf_lt_of_ne_nil {p : MPath} (hb : ∀ x ∈ p, x < 256) (hp : p ≠ []) :
    slotOf p < 256 := by
  cases p with
  | nil => exact absurd rfl hp
  | cons x xs => exact hb x (List.mem_cons_self x xs)

lemma MTrieEntry.WF_trim (e : MTrieEntry) (n : Nat) (h : MTrieEntry.WF e) :
    MTrieEntry.WF (MTrieEntry.mk
      ⟨e.me.hash, e.me.path.drop n, e.me.contentType, e.me.mode, e.me.size,
        e.me.status⟩ e.sub) := by
  cases e with
  | mk me sub =>
    obtain ⟨hb, hrest⟩ := h
    exact ⟨fun x hx => hb x (List.drop_subset n me.path hx), hrest⟩

lemma addEntryF_direct (fuel : Nat) (slots : MSlots) (h : Option Nat)
    (e : MTrieEntry)
    (hget : MSlots.get slots (slotOf e.me.path) = Option.none) :
    addEntryF (fuel + 1) (.mk slots h) e
      = .mk (slots.set (slotOf e.me.path) e) Option.none := by
  simp only [addEntryF]
  split
  · next h0 =>
    have h256 : slotOf e.me.path = 256 := by
      cases hp : e.me.path with
      | nil => rfl
      | cons x xs => rw [hp] at h0; simp at h0
    rw [h256]
  · rw [hget]


@[simp] lemma MTrie.slots_mk (s : MSlots) (h : Option Nat) :
    (MTrie.mk s h).slots = s := rfl

@[simp] lemma MTrie.hash_mk (s : MSlots) (h : Option Nat) :
    (MTrie.mk s h).hash = h := rfl

@[simp] lemma MTrieEntry.me_mk (me : MEntry) (sub : MSub) :
    (MTrieEntry.mk me sub).me = me := rfl

@[simp] lemma MTrieEntry.sub_mk (me : MEntry) (sub : MSub) :
    (MTrieEntry.mk me sub).sub = sub := rfl

lemma MTrieEntry.WF_bytes {e : MTrieEntry} (h : MTrieEntry.WF e) :
    ∀ x ∈ e.me.path, x < 256 := by
  cases e; exact h.1

lemma MTrieEntry.WF_cond {e : MTrieEntry} (h : MTrieEntry.WF e) :
    if e.me.contentType = ManifestType then
      e.me.hash = Option.none ∧ MSub.WFS e.sub
    else e.me.hash.isSome = true := by
  cases e; exact h.2

lemma MTrieEntry.WF_mk' {e : MTrieEntry}
    (hb : ∀ x ∈ e.me.path, x < 256)
    (hc : if e.me.contentType = ManifestType then
        e.me.hash = Option.none ∧ MSub.WFS e.sub
      else e.me.hash.isSome = true) : MTrieEntry.WF e := by
  cases e; exact ⟨hb, hc⟩

/-- Unfolding of `addEntryF` at an occupied slot. -/
lemma addEntryF_step_some (f : Nat) (slots : MSlots) (h : Option Nat)
    (e oldentry : MTrieEntry) (h0 : e.me.path.length ≠ 0)
    (hget : MSlots.get slots (slotOf e.me.path) = Option.some oldentry) :
    addEntryF (f + 1) (.mk slots h) e =
      if oldentry.me.path = e.me.path ∧
          oldentry.me.contentType ≠ ManifestType then
        .mk (slots.set (slotOf e.me.path) e) Option.none
      else if oldentry.me.contentType = ManifestType ∧
          lcp e.me.path oldentry.me.path = oldentry.me.path.length then
        match oldentry.sub with
        | .none => .mk slots Option.none
        | .some sub =>
          .mk (slots.set (slotOf e.me.path) (MTrieEntry.mk
            ⟨Option.none, oldentry.me.path, oldentry.me.contentType,
              oldentry.me.mode, oldentry.me.size, oldentry.me.status⟩
            (.some (addEntryF f sub (MTrieEntry.mk
              ⟨e.me.hash, e.me.path.drop (lcp e.me.path oldentry.me.path),
                e.me.contentType, e.me.mode, e.me.size, e.me.status⟩
              e.sub))))) Option.none
      else
        .mk (slots.set (slotOf e.me.path) (MTrieEntry.mk
          ⟨Option.none, e.me.path.take (lcp e.me.path oldentry.me.path),
            ManifestType, 0, 0, 0⟩
          (.some (addEntryF f
            (addEntryF f (.mk .nil Option.none) (MTrieEntry.mk
              ⟨e.me.hash, e.me.path.drop (lcp e.me.path oldentry.me.path),
                e.me.contentType, e.me.mode, e.me.size, e.me.status⟩ e.sub))
            (MTrieEntry.mk
              ⟨oldentry.me.hash,
                oldentry.me.path.drop (lcp e.me.path oldentry.me.path),
                oldentry.me.contentType, oldentry.me.mode, oldentry.me.size,
                oldentry.me.status⟩ oldentry.sub)))))
          Option.none := by
  simp only [addEntryF]
  rw [if_neg h0, hget]

@[simp] lemma slotOf_nil : slotOf [] = 256 := rfl

@[simp] lemma slotOf_cons (b : Nat) (p : MPath) : slotOf (b :: p) = b := rfl

lemma MTrieEntry.WF_manifest {me : MEntry} {sub : MSub}
    (hb : ∀ x ∈ me.path, x < 256) (hct : me.contentType = ManifestType)
    (hh : me.hash = Option.none) (hs : MSub.WFS sub) :
    MTrieEntry.WF (.mk me sub) := by
  refine ⟨hb, ?_⟩
  rw [if_pos hct]
  exact ⟨hh, hs⟩

/-- `addEntry` preserves the structural invariants. -/
lemma addEntryF_WF : ∀ (fuel : Nat) (t : MTrie) (e : MTrieEntry),
    MTrie.WF t → MTrieEntry.WF e → e.me.path.length + 2 ≤ fuel →
    MTrie.WF (addEntryF fuel t e) := by
  intro fuel
  induction fuel with
  | zero => intro t e _ _ hf; omega
  | succ fuel ih =>
    rintro ⟨slots, h⟩ e ⟨hh, hslots⟩ he hf
    by_cases h0 : e.me.path.length = 0
    · have h256 : slotOf e.me.path = 256 := by
        cases hp : e.me.path with
        | nil => rfl
        | cons x xs => rw [hp] at h0; simp at h0
      simp only [addEntryF, if_pos h0]
      exact ⟨rfl, MSlots.WF_set slots 256 e hslots h256 he⟩
    · cases hget : MSlots.get slots (slotOf e.me.path) with
      | none =>
        rw [addEntryF_direct fuel slots h e hget]
        exact ⟨rfl, MSlots.WF_set slots _ e hslots rfl he⟩
      | some oldentry =>
        rw [addEntryF_step_some fuel slots h e oldentry h0 hget]
        obtain ⟨hwfold, hslotold⟩ :=
          MSlots.get_some_WF slots _ oldentry hslots hget
        have hene : e.me.path ≠ [] := by
          intro hnil; rw [hnil] at h0; exact h0 rfl
        have hblt : slotOf e.me.path < 256 :=
          slotOf_lt_of_ne_nil (MTrieEntry.WF_bytes he) hene
        have holdne : oldentry.me.path ≠ [] := by
          intro hnil
          have h256 : slotOf oldentry.me.path = 256 := by rw [hnil]; rfl
          rw [hslotold] at h256
          omega
        have hcpl1 : 1 ≤ lcp e.me.path oldentry.me.path := by
          cases hep : e.me.path with
          | nil => exact absurd hep hene
          | cons d ds =>
            cases hop : oldentry.me.path with
            | nil => exact absurd hop holdne
            | cons c cs =>
              have hdc : d = c := by
                have h1 : slotOf (d :: ds) = slotOf e.me.path := by rw [hep]
                have h2 : slotOf (c :: cs) = slotOf e.me.path := by
                  rw [← hop]; exact hslotold
                rw [slotOf_cons] at h1 h2
                omega
              subst hdc
              exact lcp_pos_of_head_eq
        split
        · exact ⟨rfl, MSlots.WF_set slots _ e hslots rfl he⟩
        · next hrepl =>
          split
          · next hdesc =>
            cases hosub : oldentry.sub with
            | none => exact ⟨rfl, hslots⟩
            | some sub =>
              have hcond := MTrieEntry.WF_cond hwfold
              rw [if_pos hdesc.1, hosub] at hcond
              refine ⟨rfl, MSlots.WF_set slots _ _ hslots
                (by simp only [MTrieEntry.me_mk]; exact hslotold) ?_⟩
              refine MTrieEntry.WF_manifest ?_ hdesc.1 rfl ?_
              · exact fun x hx => MTrieEntry.WF_bytes hwfold x hx
              · show MTrie.WF (addEntryF fuel sub _)
                refine ih sub _ hcond.2 (MTrieEntry.WF_trim e _ he) ?_
                simp only [MTrieEntry.me_mk, List.length_drop]
                have := lcp_le_left e.me.path oldentry.me.path
                omega
          · next hdesc =>
            obtain ⟨f, rfl⟩ : ∃ f, fuel = f + 1 := ⟨fuel - 1, by omega⟩
            have hslotne : slotOf
                  (e.me.path.drop (lcp e.me.path oldentry.me.path))
                ≠ slotOf
                  (oldentry.me.path.drop (lcp e.me.path oldentry.me.path)) := by
              by_cases hdnil :
                  e.me.path.drop (lcp e.me.path oldentry.me.path) = []
              · by_cases hdnil' :
                    oldentry.me.path.drop (lcp e.me.path oldentry.me.path) = []
                · exfalso
                  have heq := lcp_eq_of_drops_nil _ _ hdnil hdnil'
                  have hman : oldentry.me.contentType = ManifestType := by
                    by_contra hct
                    exact hrepl ⟨heq.symm, hct⟩
                  refine hdesc ⟨hman, ?_⟩
                  rw [heq, lcp_self]
                · rw [hdnil, slotOf_nil]
                  have hlt : slotOf (oldentry.me.path.drop
                      (lcp e.me.path oldentry.me.path)) < 256 :=
                    slotOf_lt_of_ne_nil
                      (fun x hx => MTrieEntry.WF_bytes hwfold x
                        (List.drop_subset _ _ hx)) hdnil'
                  omega
              · by_cases hdnil' :
                    oldentry.me.path.drop (lcp e.me.path oldentry.me.path) = []
                · rw [hdnil', slotOf_nil]
                  have hlt : slotOf (e.me.path.drop
                      (lcp e.me.path oldentry.me.path)) < 256 :=
                    slotOf_lt_of_ne_nil
                      (fun x hx => MTrieEntry.WF_bytes he x
                        (List.drop_subset _ _ hx)) hdnil
                  omega
                · exact lcp_drop_slot_ne _ _ hdnil hdnil'
            rw [addEntryF_direct f .nil Option.none _ rfl]
            rw [addEntryF_direct f _ Option.none _ (by
              show MSlots.get (MSlots.set MSlots.nil _ _) _ = Option.none
              simp only [MSlots.set, MSlots.get, MTrieEntry.me_mk]
              rw [if_neg (fun hx => hslotne hx.symm)])]
            refine ⟨rfl, MSlots.WF_set slots _ _ hslots ?_ ?_⟩
            · simp only [MTrieEntry.me_mk]
              rw [slotOf_take hcpl1]
            · refine MTrieEntry.WF_manifest ?_ rfl rfl ?_
              · exact fun x hx => MTrieEntry.WF_bytes he x
                  (List.take_subset _ _ hx)
              · show MTrie.WF (MTrie.mk _ Option.none)
                refine ⟨rfl, ?_⟩
                show MSlots.WF (MSlots.set (MSlots.set MSlots.nil _ _) _ _)
                refine MSlots.WF_set _ _ _ ?_
                  (by simp only [MTrieEntry.me_mk])
                  (MTrieEntry.WF_trim oldentry _ hwfold)
                show MSlots.WF (MSlots.cons _ _ MSlots.nil)
                exact ⟨by simp only [MTrieEntry.me_mk], trivial,
                  MTrieEntry.WF_trim e _ he, trivial⟩

lemma MTrie.WF_slots {t : MTrie} (h : MTrie.WF t) : MSlots.WF t.slots := by
  cases t; exact h.2

/-- Unfolding of `deleteEntryF` at an occupied slot. -/
lemma deleteEntryF_step_some (f : Nat) (slots : MSlots) (h : Option Nat)
    (p : MPath) (entry : MTrieEntry) (h0 : p.length ≠ 0)
    (hget : MSlots.get slots (slotOf p) = Option.some entry) :
    deleteEntryF (f + 1) (.mk slots h) p =
      if entry.me.path = p then .mk (slots.del (slotOf p)) Option.none
      else if entry.me.contentType = ManifestType ∧
          entry.me.path.length ≤ p.length ∧
          p.take entry.me.path.length = entry.me.path then
        match entry.sub with
        | .none => .mk slots Option.none
        | .some sub =>
          if ((deleteEntryF f sub (p.drop entry.me.path.length)).slots.countLast).1
              < 2 then
            match ((deleteEntryF f sub (p.drop entry.me.path.length)).slots.countLast).2
                with
            | Option.none => .mk (slots.del (slotOf p)) Option.none
            | Option.some lastentry =>
              .mk (slots.set (slotOf p) (MTrieEntry.mk
                ⟨lastentry.me.hash, entry.me.path ++ lastentry.me.path,
                  lastentry.me.contentType, lastentry.me.mode,
                  lastentry.me.size, lastentry.me.status⟩
                lastentry.sub)) Option.none
          else
            .mk (slots.set (slotOf p) (MTrieEntry.mk
              ⟨Option.none, entry.me.path, entry.me.contentType,
                entry.me.mode, entry.me.size, entry.me.status⟩
              (.some (deleteEntryF f sub (p.drop entry.me.path.length)))))
              Option.none
      else .mk slots Option.none := by
  simp only [deleteEntryF]
  rw [if_neg h0, hget]

/-- `deleteEntry` preserves the structural invariants. -/
lemma deleteEntryF_WF : ∀ (fuel : Nat) (t : MTrie) (p : MPath),
    MTrie.WF t → (∀ x ∈ p, x < 256) → MTrie.WF (deleteEntryF fuel t p) := by
  intro fuel
  induction fuel with
  | zero => intro t p ht _; exact ht
  | succ fuel ih =>
    rintro ⟨slots, h⟩ p ⟨hh, hslots⟩ hp
    by_cases h0 : p.length = 0
    · simp only [deleteEntryF, if_pos h0]
      exact ⟨rfl, MSlots.WF_del slots 256 hslots⟩
    · cases hget : MSlots.get slots (slotOf p) with
      | none =>
        simp only [deleteEntryF]
        rw [if_neg h0, hget]
        exact ⟨rfl, hslots⟩
      | some entry =>
        rw [deleteEntryF_step_some fuel slots h p entry h0 hget]
        obtain ⟨hwfent, hslotent⟩ := MSlots.get_some_WF slots _ entry hslots hget
        have hpne : p ≠ [] := by
          intro hnil; rw [hnil] at h0; exact h0 rfl
        have hplt : slotOf p < 256 := slotOf_lt_of_ne_nil hp hpne
        have hentne : entry.me.path ≠ [] := by
          intro hnil
          have h256 : slotOf entry.me.path = 256 := by rw [hnil]; rfl
          rw [hslotent] at h256
          omega
        split
        · exact ⟨rfl, MSlots.WF_del slots _ hslots⟩
        · next hne =>
          split
          · next hcond =>
            cases hesub : entry.sub with
            | none => exact ⟨rfl, hslots⟩
            | some sub =>
              have hc := MTrieEntry.WF_cond hwfent
              rw [if_pos hcond.1, hesub] at hc
              have hwf' : MTrie.WF (deleteEntryF fuel sub
                  (p.drop entry.me.path.length)) :=
                ih sub _ hc.2 (fun x hx => hp x (List.drop_subset _ _ hx))
              show (if ((deleteEntryF fuel sub
                    (p.drop entry.me.path.length)).slots.countLast).1 < 2 then
                  match ((deleteEntryF fuel sub
                      (p.drop entry.me.path.length)).slots.countLast).2 with
                  | Option.none => MTrie.mk (slots.del (slotOf p)) Option.none
                  | Option.some lastentry =>
                    MTrie.mk (slots.set (slotOf p) (MTrieEntry.mk
                      ⟨lastentry.me.hash, entry.me.path ++ lastentry.me.path,
                        lastentry.me.contentType, lastentry.me.mode,
                        lastentry.me.size, lastentry.me.status⟩
                      lastentry.sub)) Option.none
                else
                  MTrie.mk (slots.set (slotOf p) (MTrieEntry.mk
                    ⟨Option.none, entry.me.path, entry.me.contentType,
                      entry.me.mode, entry.me.size, entry.me.status⟩
                    (.some (deleteEntryF fuel sub
                      (p.drop entry.me.path.length)))))
                    Option.none).WF
              split
              · split
                · exact ⟨rfl, MSlots.WF_del slots _ hslots⟩
                · next lastentry hlast =>
                  have hwflast : MTrieEntry.WF lastentry :=
                    MSlots.countLast_some_WF _ lastentry
                      (MTrie.WF_slots hwf') hlast
                  refine ⟨rfl, MSlots.WF_set slots _ _ hslots ?_ ?_⟩
                  · simp only [MTrieEntry.me_mk]
                    cases hep : entry.me.path with
                    | nil => exact absurd hep hentne
                    | cons c cs =>
                      rw [List.cons_append, slotOf_cons]
                      have := hslotent
                      rw [hep, slotOf_cons] at this
                      exact this
                  · refine MTrieEntry.WF_mk' ?_ ?_
                    · simp only [MTrieEntry.me_mk]
                      intro x hx
                      rcases List.mem_append.mp hx with hx1 | hx2
                      · exact MTrieEntry.WF_bytes hwfent x hx1
                      · exact MTrieEntry.WF_bytes hwflast x hx2
                    · have hcondlast := MTrieEntry.WF_cond hwflast
                      exact hcondlast
              · refine ⟨rfl, MSlots.WF_set slots _ _ hslots
                  (by simp only [MTrieEntry.me_mk]; exact hslotent) ?_⟩
                refine MTrieEntry.WF_manifest ?_ hcond.1 rfl hwf'
                exact fun x hx => MTrieEntry.WF_bytes hwfent x hx
          · exact ⟨rfl, hslots⟩

lemma MSlots.ltAll_keys : ∀ (slots : MSlots) (b : Nat), MSlots.ltAll b slots →
    ∀ k ∈ MSlots.keys slots, b < k
  | .nil, _, _ => by intro k hk; simp [MSlots.keys] at hk
  | .cons b' e rest, b, h => by
    intro k hk
    simp only [MSlots.keys, List.mem_cons] at hk
    rcases hk with rfl | hk
    · exact h.1
    · exact MSlots.ltAll_keys rest b h.2 k hk

lemma ValidOp_entry_WF {e : MTrieEntry} (h : ValidOp (.add e)) :
    MTrieEntry.WF e := by
  obtain ⟨hb, hct, hh, _⟩ := h
  exact MTrieEntry.WF_mk' hb (by rw [if_neg hct]; exact hh)

/-- Any sequence of valid writer operations keeps the trie
well-formed. -/
lemma applyOps_WF : ∀ (ops : List MOp) (t : MTrie), MTrie.WF t →
    (∀ op ∈ ops, ValidOp op) → MTrie.WF (applyOps t ops) := by
  intro ops
  induction ops with
  | nil => intro t ht _; exact ht
  | cons op ops ih =>
    intro t ht hops
    refine ih (applyOp t op) ?_ (fun o ho => hops o (List.mem_cons_of_mem _ ho))
    have hop := hops op (List.mem_cons_self _ _)
    cases op with
    | add e =>
      exact addEntryF_WF _ t e ht (ValidOp_entry_WF hop) le_rfl
    | del p =>
      exact deleteEntryF_WF _ t p ht hop

/-- The lazy node a `readManifest` rebuild produces: each serialized
entry at its slot, with no subtrie pointer. -/
def lazySlots : List MEntry → MSlots
  | [] => .nil
  | me :: rest => .cons (slotOf me.path) (.mk me .none) (lazySlots rest)

def MSlots.appendS : MSlots → MSlots → MSlots
  | .nil, s => s
  | .cons b e rest, s => .cons b e (MSlots.appendS rest s)

lemma MSlots.appendS_nil : ∀ s : MSlots, MSlots.appendS s .nil = s
  | .nil => rfl
  | .cons b e rest => by
    simp only [MSlots.appendS]
    rw [MSlots.appendS_nil rest]

lemma MSlots.keys_appendS : ∀ s₁ s₂ : MSlots,
    MSlots.keys (MSlots.appendS s₁ s₂) = MSlots.keys s₁ ++ MSlots.keys s₂
  | .nil, s₂ => rfl
  | .cons b e rest, s₂ => by
    simp only [MSlots.appendS, MSlots.keys, List.cons_append]
    rw [MSlots.keys_appendS rest s₂]

lemma MSlots.appendS_assoc : ∀ s₁ s₂ s₃ : MSlots,
    MSlots.appendS (MSlots.appendS s₁ s₂) s₃
      = MSlots.appendS s₁ (MSlots.appendS s₂ s₃)
  | .nil, _, _ => rfl
  | .cons b e rest, s₂, s₃ => by
    simp only [MSlots.appendS]
    rw [MSlots.appendS_assoc rest s₂ s₃]

lemma MSlots.get_none_of_keys_lt : ∀ (s : MSlots) (b : Nat),
    (∀ k ∈ MSlots.keys s, k < b) → MSlots.get s b = Option.none
  | .nil, _, _ => rfl
  | .cons b' e rest, b, h => by
    simp only [MSlots.get]
    rw [if_neg, MSlots.get_none_of_keys_lt rest b]
    · exact fun k hk => h k (by simp [MSlots.keys, hk])
    · have := h b' (by simp [MSlots.keys])
      omega

lemma MSlots.set_append_of_keys_lt : ∀ (s : MSlots) (b : Nat) (e : MTrieEntry),
    (∀ k ∈ MSlots.keys s, k < b) →
    MSlots.set s b e = MSlots.appendS s (.cons b e .nil)
  | .nil, _, _, _ => rfl
  | .cons b' e' rest, b, e, h => by
    have hb' : b' < b := h b' (by simp [MSlots.keys])
    simp only [MSlots.set, MSlots.appendS]
    rw [if_neg (by omega), if_neg (by omega),
      MSlots.set_append_of_keys_lt rest b e
        (fun k hk => h k (by simp [MSlots.keys, hk]))]

/-- Ascending slot discipline of a serialized node. -/
def SerialAsc : List MEntry → Prop
  | [] => True
  | me :: rest => (∀ me' ∈ rest, slotOf me.path < slotOf me'.path) ∧
      SerialAsc rest

/-- On a stored entry list with ascending slots, the `readManifest`
rebuild places every entry directly at its slot. -/
lemma buildFold_lazy : ∀ (serial : List MEntry) (acc : MSlots),
    (∀ k ∈ MSlots.keys acc, ∀ me ∈ serial, k < slotOf me.path) →
    SerialAsc serial →
    serial.foldl (fun t me => addEntry t (.mk me .none)) (.mk acc Option.none)
      = .mk (MSlots.appendS acc (lazySlots serial)) Option.none := by
  intro serial
  induction serial with
  | nil =>
    intro acc _ _
    simp only [List.foldl_nil, lazySlots]
    rw [MSlots.appendS_nil]
  | cons me rest ih =>
    intro acc hacc hasc
    simp only [List.foldl_cons]
    have hget : MSlots.get acc (slotOf (MTrieEntry.mk me .none).me.path)
        = Option.none := by
      refine MSlots.get_none_of_keys_lt acc _ ?_
      exact fun k hk => hacc k hk me (List.mem_cons_self _ _)
    have hstep : addEntry (.mk acc Option.none) (.mk me .none)
        = .mk (MSlots.appendS acc (.cons (slotOf me.path)
            (.mk me .none) .nil)) Option.none := by
      show addEntryF ((MTrieEntry.mk me .none).me.path.length + 1 + 1)
          (.mk acc Option.none) (.mk me .none) = _
      rw [addEntryF_direct _ acc Option.none _ hget]
      simp only [MTrieEntry.me_mk]
      rw [MSlots.set_append_of_keys_lt acc _ _
        (fun k hk => hacc k hk me (List.mem_cons_self _ _))]
    rw [hstep, ih _ ?_ hasc.2, MSlots.appendS_assoc]
    · rfl
    · intro k hk me' hme'
      rw [MSlots.keys_appendS] at hk
      rcases List.mem_append.mp hk with hk1 | hk2
      · exact hacc k hk1 me' (List.mem_cons_of_mem _ hme')
      · simp only [MSlots.keys, List.mem_singleton] at hk2
        subst hk2
        exact hasc.1 me' hme'

lemma buildFromEntries_lazy (serial : List MEntry) (h : SerialAsc serial) :
    buildFromEntries serial = .mk (lazySlots serial) Option.none := by
  rw [buildFromEntries, buildFold_lazy serial .nil (by intro k hk; simp [MSlots.keys] at hk) h]
  rfl

/-- The leaves of a stored entry list, walked entry by entry (each
entry lazy). -/
def serialLeaves (st : Store) (fuel : Nat) :
    List MEntry → MPath → Option (List (MPath × MEntry))
  | [], _ => Option.some []
  | me :: rest, pre =>
    match entryLeaves st fuel (.mk me .none) pre,
        serialLeaves st fuel rest pre with
    | Option.some l1, Option.some l2 => Option.some (l1 ++ l2)
    | _, _ => Option.none

lemma slotsLeaves_lazySlots (st : Store) (fuel : Nat) :
    ∀ (serial : List MEntry) (pre : MPath),
      slotsLeaves st fuel (lazySlots serial) pre
        = serialLeaves st fuel serial pre := by
  intro serial
  induction serial with
  | nil => intro pre; simp [lazySlots, slotsLeaves, serialLeaves]
  | cons me rest ih =>
    intro pre
    simp only [lazySlots, slotsLeaves, serialLeaves]
    rw [ih pre]


mutual
/-- After `recalcAndStore` on a well-formed trie, re-loading the stored
key and walking its leaves (with lazy subtrie loads from any extension
of the resulting store) reproduces exactly the in-memory leaves. -/
lemma recalc_roundtrip_trie : ∀ (t : MTrie) (st : Store), MTrie.WF t →
    ∃ slots' k st', recalcAndStore t st
        = Option.some (.mk slots' (Option.some k), st') ∧
      Store.Extends st' st ∧
      ∀ st'' fuel pre, Store.Extends st'' st' → MTrie.depth t ≤ fuel →
        manifestRoundTrip st'' fuel k pre
          = Option.some (MTrie.flatten t pre)
  | .mk slots h, st, hwf => by
    obtain ⟨hh, hslots⟩ := hwf
    subst hh
    obtain ⟨slots', st', hrec, hext, hkeys, hasc, hleaves⟩ :=
      recalc_roundtrip_slots slots st hslots
    refine ⟨slots', (st'.put (serializeSlots slots')).2,
      (st'.put (serializeSlots slots')).1, ?_, ?_, ?_⟩
    · simp only [recalcAndStore]
      rw [hrec]
    · exact (Store.extends_put st' _).trans hext
    · intro st'' fuel pre hext'' hfuel
      have hfind : st''.find (st'.put (serializeSlots slots')).2
          = Option.some (serializeSlots slots') :=
        hext'' _ _ (Store.find_put st' _)
      have hread : readManifest st'' (st'.put (serializeSlots slots')).2
          = Option.some (buildFromEntries (serializeSlots slots')) := by
        simp only [readManifest, hfind]
      simp only [manifestRoundTrip, hread]
      rw [buildFromEntries_lazy _ hasc]
      have htl : trieLeaves st'' fuel
          (.mk (lazySlots (serializeSlots slots')) Option.none) pre
          = slotsLeaves st'' fuel (lazySlots (serializeSlots slots')) pre := by
        simp [trieLeaves]
      rw [htl, slotsLeaves_lazySlots]
      rw [hleaves st'' fuel pre (hext''.trans (Store.extends_put st' _))
        (by simp only [MTrie.depth] at hfuel; omega)]
      simp [MTrie.flatten]
/-- The entry-list part of the round trip, entries without subtrie. -/
lemma recalc_roundtrip_slots : ∀ (slots : MSlots) (st : Store),
    MSlots.WF slots →
    ∃ slots' st', recalcSlots slots st = Option.some (slots', st') ∧
      Store.Extends st' st ∧
      (serializeSlots slots').map (fun me => slotOf me.path)
        = MSlots.keys slots ∧
      SerialAsc (serializeSlots slots') ∧
      ∀ st'' fuel pre, Store.Extends st'' st' → MSlots.depth slots < fuel →
        serialLeaves st'' fuel (serializeSlots slots') pre
          = Option.some (MSlots.flatten slots pre)
  | .nil, st, _ => by
    refine ⟨.nil, st, rfl, Store.Extends.refl st, rfl, trivial, ?_⟩
    intro st'' fuel pre _ _
    simp [serializeSlots, serialLeaves, MSlots.flatten]
  | .cons b (.mk me MSub.none) rest, st, hwf => by
    obtain ⟨hslot, hlt, hwfe, hwfrest⟩ := hwf
    simp only [MTrieEntry.me_mk] at hslot
    have hc := MTrieEntry.WF_cond hwfe
    simp only [MTrieEntry.me_mk, MTrieEntry.sub_mk] at hc
    cases hme : me.hash with
    | none =>
      exfalso
      have hct : me.contentType = ManifestType := by
        by_contra hctm
        rw [if_neg hctm, hme] at hc
        exact Bool.noConfusion hc
      rw [if_pos hct] at hc
      exact hc.2
    | some k0 =>
      have hct : me.contentType ≠ ManifestType := by
        intro hctm
        rw [if_pos hctm, hme] at hc
        exact Option.noConfusion hc.1
      obtain ⟨rest', st', hrec, hext, hkeys, hasc, hleaves⟩ :=
        recalc_roundtrip_slots rest st hwfrest
      refine ⟨.cons b (.mk me MSub.none) rest', st', ?_, hext, ?_, ?_, ?_⟩
      · simp only [recalcSlots]
        rw [hme, hrec]
      · simp only [serializeSlots, List.map_cons, MSlots.keys,
          MTrieEntry.me_mk]
        rw [hkeys, hslot]
      · refine ⟨?_, hasc⟩
        intro me' hme'
        have hmem : slotOf me'.path ∈ MSlots.keys rest := by
          rw [← hkeys]
          exact List.mem_map_of_mem _ hme'
        have hgt := MSlots.ltAll_keys rest b hlt _ hmem
        simpa [hslot] using hgt
      · intro st'' fuel pre hext'' hfuel
        obtain ⟨f, rfl⟩ : ∃ f, fuel = f + 1 := ⟨fuel - 1, by omega⟩
        simp only [serializeSlots, MTrieEntry.me_mk, serialLeaves]
        have hentry : entryLeaves st'' (f + 1) (.mk me .none) pre
            = Option.some [(pre ++ me.path, me)] := by
          unfold entryLeaves
          rw [if_neg hct]
        rw [hentry, hleaves st'' (f + 1) pre hext''
          (by simp only [MSlots.depth] at hfuel ⊢; omega)]
        simp only [MSlots.flatten, MTrieEntry.flatten]
        rw [if_neg hct]
  | .cons b (.mk me (MSub.some tc)) rest, st, hwf => by
    obtain ⟨hslot, hlt, hwfe, hwfrest⟩ := hwf
    simp only [MTrieEntry.me_mk] at hslot
    have hc := MTrieEntry.WF_cond hwfe
    simp only [MTrieEntry.me_mk, MTrieEntry.sub_mk] at hc
    cases hme : me.hash with
    | some k0 =>
      have hct : me.contentType ≠ ManifestType := by
        intro hctm
        rw [if_pos hctm, hme] at hc
        exact Option.noConfusion hc.1
      obtain ⟨rest', st', hrec, hext, hkeys, hasc, hleaves⟩ :=
        recalc_roundtrip_slots rest st hwfrest
      refine ⟨.cons b (.mk me (MSub.some tc)) rest', st', ?_, hext,
        ?_, ?_, ?_⟩
      · simp only [recalcSlots]
        rw [hme, hrec]
      · simp only [serializeSlots, List.map_cons, MSlots.keys,
          MTrieEntry.me_mk]
        rw [hkeys, hslot]
      · refine ⟨?_, hasc⟩
        intro me' hme'
        have hmem : slotOf me'.path ∈ MSlots.keys rest := by
          rw [← hkeys]
          exact List.mem_map_of_mem _ hme'
        have hgt := MSlots.ltAll_keys rest b hlt _ hmem
        simpa [hslot] using hgt
      · intro st'' fuel pre hext'' hfuel
        obtain ⟨f, rfl⟩ : ∃ f, fuel = f + 1 := ⟨fuel - 1, by omega⟩
        simp only [serializeSlots, MTrieEntry.me_mk, serialLeaves]
        have hentry : entryLeaves st'' (f + 1) (.mk me .none) pre
            = Option.some [(pre ++ me.path, me)] := by
          unfold entryLeaves
          rw [if_neg hct]
        rw [hentry, hleaves st'' (f + 1) pre hext''
          (by simp only [MSlots.depth] at hfuel ⊢; omega)]
        simp only [MSlots.flatten, MTrieEntry.flatten]
        rw [if_neg hct]
    | none =>
      have hct : me.contentType = ManifestType := by
        by_contra hctm
        rw [if_neg hctm, hme] at hc
        exact Bool.noConfusion hc
      rw [if_pos hct] at hc
      have hwftc : MTrie.WF tc := hc.2
      obtain ⟨cslots', kc, stc, hrecc, hextc, hroundc⟩ :=
        recalc_roundtrip_trie tc st hwftc
      obtain ⟨rest', st', hrec, hext, hkeys, hasc, hleaves⟩ :=
        recalc_roundtrip_slots rest stc hwfrest
      refine ⟨.cons b (.mk
        ⟨Option.some kc, me.path, me.contentType, me.mode, me.size,
          me.status⟩ (.some (.mk cslots' (Option.some kc)))) rest',
        st', ?_, hext.trans hextc, ?_, ?_, ?_⟩
      · simp only [recalcSlots]
        rw [hme, hrecc]
        simp only [MTrie.hash_mk]
        rw [hrec]
      · simp only [serializeSlots, List.map_cons, MSlots.keys,
          MTrieEntry.me_mk]
        rw [hkeys, hslot]
      · refine ⟨?_, hasc⟩
        intro me' hme'
        have hmem : slotOf me'.path ∈ MSlots.keys rest := by
          rw [← hkeys]
          exact List.mem_map_of_mem _ hme'
        have hgt := MSlots.ltAll_keys rest b hlt _ hmem
        simpa [hslot] using hgt
      · intro st'' fuel pre hext'' hfuel
        obtain ⟨f, rfl⟩ : ∃ f, fuel = f + 1 := ⟨fuel - 1, by omega⟩
        simp only [serializeSlots, MTrieEntry.me_mk, serialLeaves]
        have hdep : MTrie.depth tc ≤ f := by
          simp only [MSlots.depth, MTrieEntry.depth] at hfuel
          omega
        have hroundc' := hroundc st'' f (pre ++ me.path)
          (hext''.trans hext) hdep
        have hentry : entryLeaves st'' (f + 1) (.mk
            ⟨Option.some kc, me.path, me.contentType, me.mode, me.size,
              me.status⟩ .none) pre
            = Option.some (MTrie.flatten tc (pre ++ me.path)) := by
          rw [← hroundc']
          unfold entryLeaves
          simp only [hct, eq_self_iff_true, if_true]
          unfold manifestRoundTrip
          cases hrm : readManifest st'' kc <;> rfl
        rw [hentry, hleaves st'' (f + 1) pre hext''
          (by simp only [MSlots.depth] at hfuel ⊢; omega)]
        simp only [MSlots.flatten, MTrieEntry.flatten]
        rw [if_pos hct]
end

/-- A concrete writer workload: two files under a shared prefix (the
second add forks the leaf into a subtrie), one top-level file, then a
delete that collapses the fork again. -/
def c8ops : List MOp :=
  [.add (.mk ⟨Option.some 7, [97, 98, 99], "text/plain", 0, 3, 0⟩ .none),
   .add (.mk ⟨Option.some 8, [97, 98, 100], "text/plain", 0, 3, 0⟩ .none),
   .add (.mk ⟨Option.some 9, [120], "text/plain", 0, 1, 0⟩ .none),
   .del [97, 98, 100]]

/-- C8: for every sequence of writer addEntry/deleteEntry operations
applied to a fresh manifest trie, `recalcAndStore` succeeds and caches
a key under which the serialized trie was stored, and re-loading the
manifest from that key via `readManifest` and walking it with enough
load fuel yields exactly the leaf set of the in-memory trie — every
non-manifest entry under its full re-concatenated path, with its
fields — whatever the internal branching of the two tries. -/
theorem c8_manifest_round_trip (ops : List MOp) (st0 : Store)
    (hops : ∀ op ∈ ops, ValidOp op) :
    ∃ slots' k st',
      recalcAndStore (applyOps (.mk .nil Option.none) ops) st0
        = Option.some (.mk slots' (Option.some k), st') ∧
      Store.Extends st' st0 ∧
      ∀ fuel pre,
        MTrie.depth (applyOps (.mk .nil Option.none) ops) ≤ fuel →
        manifestRoundTrip st' fuel k pre
          = Option.some
              (MTrie.flatten (applyOps (.mk .nil Option.none) ops) pre) := by
  have hwf : MTrie.WF (applyOps (.mk .nil Option.none) ops) :=
    applyOps_WF ops _ ⟨rfl, trivial⟩ hops
  obtain ⟨slots', k, st', hrec, hext, hround⟩ :=
    recalc_roundtrip_trie _ st0 hwf
  exact ⟨slots', k, st', hrec, hext,
    fun fuel pre hfuel => hround st' fuel pre (Store.Extends.refl st') hfuel⟩

/-- C8 witness: the round trip on the concrete workload from the empty
store. -/
theorem c8_manifest_round_trip_witness :
    (∀ op ∈ c8ops, ValidOp op) ∧
    ∃ slots' k st',
      recalcAndStore (applyOps (.mk .nil Option.none) c8ops) ⟨[]⟩
        = Option.some (.mk slots' (Option.some k), st') ∧
      Store.Extends st' ⟨[]⟩ ∧
      ∀ fuel pre,
        MTrie.depth (applyOps (.mk .nil Option.none) c8ops) ≤ fuel →
        manifestRoundTrip st' fuel k pre
          = Option.some
              (MTrie.flatten (applyOps (.mk .nil Option.none) c8ops) pre) :=
  ⟨by decide, c8_manifest_round_trip c8ops ⟨[]⟩ (by decide)⟩

/-- Go `strings.Contains(s, sub)`: `sub` occurs as a contiguous
substring of `s` (paths are byte strings, modelled as byte lists). -/
def strContains (s sub : MPath) : Bool := decide (sub <:+: s)

/-- The descend guard of the source's `findPrefixOf`:
`strings.Contains(entry.Path, path) || strings.Contains(path, entry.Path)`. -/
def containsGuard (ep path : MPath) : Bool :=
  strContains ep path || strContains path ep

/-- The guard the spec expects in its place: `entry.Path` is a prefix
of `path`. -/
def prefixGuard (ep path : MPath) : Bool := decide (ep <+: path)

/-- `loadSubTrie`: use the in-memory subtrie if present, else load the
manifest stored behind the entry's hash; `none` is a load error (an
entry with neither subtrie nor hash has the empty hash string, whose
retrieval fails). -/
def loadSubTrieRead (st : Store) (e : MTrieEntry) : Option MTrie :=
  match MTrieEntry.sub e with
  | .some t => Option.some t
  | .none =>
    match e.me.hash with
    | Option.some k => readManifest st k
    | Option.none => Option.none

/-- The `sub.Path == ""` scan of `findPrefixOf` over a loaded
subtrie's entries, in slot order. -/
def findEmptyPathEntry : MSlots → Option MTrieEntry
  | .nil => Option.none
  | .cons _ e rest =>
    if e.me.path = [] then Option.some e else findEmptyPathEntry rest

/-- `findPrefixOf` with the descend guard abstracted (the guard gets
`entry.Path` and `path`).  The result is Go's `(entry, pos)` pair with
`Option.none` for a nil entry, wrapped in an outer `Option` that is
`Option.none` only on recursion-fuel exhaustion.  The `Status`
mutations of the source are dropped: they do not affect the returned
pair.  Note the naked `return`s of the source: they yield the slot
entry with `pos = 0` when the slot entry's path and the searched path
share their first byte but neither bounds the other, and after an
unsuccessful recursive descend. -/
def findPrefixOfG (guard : MPath → MPath → Bool) (st : Store) :
    Nat → MTrie → MPath → Option (Option MTrieEntry × Nat)
  | 0, _, _ => Option.none
  | _ + 1, .mk slots _, [] => Option.some (MSlots.get slots 256, 0)
  | fuel + 1, .mk slots _, b :: pt =>
    match MSlots.get slots b with
    | Option.none => Option.some (MSlots.get slots 256, 0)
    | Option.some e =>
      if (b :: pt).length ≤ e.me.path.length then
        if e.me.path.take (b :: pt).length = b :: pt then
          if e.me.contentType = ManifestType then
            match loadSubTrieRead st e with
            | Option.some sub =>
              match findEmptyPathEntry (MTrie.slots sub) with
              | Option.some s =>
                Option.some (Option.some s, (b :: pt).length)
              | Option.none =>
                Option.some (Option.some e, (b :: pt).length)
            | Option.none => Option.some (Option.some e, (b :: pt).length)
          else Option.some (Option.some e, (b :: pt).length)
        else Option.some (Option.none, 0)
      else
        if (b :: pt).take e.me.path.length = e.me.path then
          if e.me.contentType = ManifestType ∧
              guard e.me.path (b :: pt) = true then
            match loadSubTrieRead st e with
            | Option.none => Option.some (Option.none, 0)
            | Option.some subt =>
              match findPrefixOfG guard st fuel subt
                  ((b :: pt).drop e.me.path.length) with
              | Option.none => Option.none
              | Option.some (Option.some s, pos) =>
                Option.some (Option.some s, pos + e.me.path.length)
              | Option.some (Option.none, _) =>
                Option.some (Option.some e, 0)
          else
            if b :: pt = e.me.path then
              Option.some (Option.some e, e.me.path.length)
            else Option.some (Option.none, 0)
        else Option.some (Option.some e, 0)

/-- The source's `findPrefixOf` (containment guard). -/
def findPrefixOf : Store → Nat → MTrie → MPath →
    Option (Option MTrieEntry × Nat) := findPrefixOfG containsGuard

/-- The variant with the explicit prefix test in place of the
containment guard. -/
def findPrefixOfP : Store → Nat → MTrie → MPath →
    Option (Option MTrieEntry × Nat) := findPrefixOfG prefixGuard

/-- One step of `findPrefixOfG` at an occupied first-byte slot. -/
lemma findPrefixOfG_step_some (g : MPath → MPath → Bool) (st : Store)
    (f : Nat) (slots : MSlots) (h : Option Nat) (b : Nat) (pt : MPath)
    (e : MTrieEntry) (hget : MSlots.get slots b = Option.some e) :
    findPrefixOfG g st (f + 1) (.mk slots h) (b :: pt) =
      if (b :: pt).length ≤ e.me.path.length then
        if e.me.path.take (b :: pt).length = b :: pt then
          if e.me.contentType = ManifestType then
            match loadSubTrieRead st e with
            | Option.some sub =>
              match findEmptyPathEntry (MTrie.slots sub) with
              | Option.some s =>
                Option.some (Option.some s, (b :: pt).length)
              | Option.none =>
                Option.some (Option.some e, (b :: pt).length)
            | Option.none => Option.some (Option.some e, (b :: pt).length)
          else Option.some (Option.some e, (b :: pt).length)
        else Option.some (Option.none, 0)
      else
        if (b :: pt).take e.me.path.length = e.me.path then
          if e.me.contentType = ManifestType ∧
              g e.me.path (b :: pt) = true then
            match loadSubTrieRead st e with
            | Option.none => Option.some (Option.none, 0)
            | Option.some subt =>
              match findPrefixOfG g st f subt
                  ((b :: pt).drop e.me.path.length) with
              | Option.none => Option.none
              | Option.some (Option.some s, pos) =>
                Option.some (Option.some s, pos + e.me.path.length)
              | Option.some (Option.none, _) =>
                Option.some (Option.some e, 0)
          else
            if b :: pt = e.me.path then
              Option.some (Option.some e, e.me.path.length)
            else Option.some (Option.none, 0)
        else Option.some (Option.some e, 0) := by
  simp only [findPrefixOfG]
  rw [hget]

/-- Two guards that agree whenever the searched path strictly extends
the entry path and starts with it — the only situation in which
`findPrefixOf` consults its guard — give the same function. -/
lemma findPrefixOfG_congr (g1 g2 : MPath → MPath → Bool)
    (hg : ∀ ep p : MPath, ep.length < p.length →
      p.take ep.length = ep → g1 ep p = g2 ep p) (st : Store) :
    ∀ (fuel : Nat) (t : MTrie) (path : MPath),
      findPrefixOfG g1 st fuel t path = findPrefixOfG g2 st fuel t path := by
  intro fuel
  induction fuel with
  | zero => intro t path; rfl
  | succ f ih =>
    intro t path
    cases t with
    | mk slots h =>
      cases path with
      | nil => rfl
      | cons b pt =>
        cases hget : MSlots.get slots b with
        | none =>
          unfold findPrefixOfG
          rw [hget]
        | some e =>
          rw [findPrefixOfG_step_some g1 st f slots h b pt e hget,
            findPrefixOfG_step_some g2 st f slots h b pt e hget]
          by_cases hlen : (b :: pt).length ≤ e.me.path.length
          · rw [if_pos hlen, if_pos hlen]
          · rw [if_neg hlen, if_neg hlen]
            by_cases htake : (b :: pt).take e.me.path.length = e.me.path
            · rw [if_pos htake, if_pos htake]
              have hge : g1 e.me.path (b :: pt) = g2 e.me.path (b :: pt) :=
                hg _ _ (Nat.not_le.mp hlen) htake
              rw [hge]
              simp only [ih]
            · rw [if_neg htake, if_neg htake]

/-- C10: the containment guard of `findPrefixOf` is evaluated only
when the searched path is strictly longer than the slot entry's path
and starts with it; there the guard is true (the entry path is an
infix, being a prefix) and agrees with the explicit prefix test, and
`findPrefixOf` is extensionally equal to the prefix-test variant. -/
theorem c10_find_prefix_guard (ep p : MPath)
    (hlen : ep.length < p.length) (htake : p.take ep.length = ep) :
    containsGuard ep p = true ∧
    containsGuard ep p = prefixGuard ep p ∧
    ∀ (st : Store) (fuel : Nat) (t : MTrie) (path : MPath),
      findPrefixOf st fuel t path = findPrefixOfP st fuel t path := by
  have hpre : ep <+: p := List.prefix_iff_eq_take.mpr htake.symm
  have hcg : containsGuard ep p = true := by
    simp only [containsGuard, strContains, Bool.or_eq_true, decide_eq_true_eq]
    exact Or.inr hpre.isInfix
  have hpg : prefixGuard ep p = true := by
    simp only [prefixGuard, decide_eq_true_eq]
    exact hpre
  refine ⟨hcg, hcg.trans hpg.symm, ?_⟩
  intro st fuel t path
  have hg : ∀ ep' p' : MPath, ep'.length < p'.length →
      p'.take ep'.length = ep' → containsGuard ep' p' = prefixGuard ep' p' := by
    intro ep' p' h1 h2
    have hpre' : ep' <+: p' := List.prefix_iff_eq_take.mpr h2.symm
    have h3 : containsGuard ep' p' = true := by
      simp only [containsGuard, strContains, Bool.or_eq_true,
        decide_eq_true_eq]
      exact Or.inr hpre'.isInfix
    have h4 : prefixGuard ep' p' = true := by
      simp only [prefixGuard, decide_eq_true_eq]
      exact hpre'
    rw [h3, h4]
  exact findPrefixOfG_congr containsGuard prefixGuard hg st fuel t path

/-- C10 witness: the reachability conditions and the guard equivalence
at a concrete entry path and searched path. -/
theorem c10_find_prefix_guard_witness :
    (List.length ([97] : MPath) < List.length ([97, 98] : MPath) ∧
      List.take (List.length ([97] : MPath)) ([97, 98] : MPath) = [97]) ∧
    (containsGuard [97] [97, 98] = true ∧
     containsGuard [97] [97, 98] = prefixGuard [97] [97, 98] ∧
     ∀ (st : Store) (fuel : Nat) (t : MTrie) (path : MPath),
       findPrefixOf st fuel t path = findPrefixOfP st fuel t path) :=
  ⟨⟨by decide, by decide⟩,
    c10_find_prefix_guard [97] [97, 98] (by decide) (by decide)⟩
